import Mathlib

/-!
# Verification of the `architect` feature installation engine

Shallow embedding of `src/architect/orms/decorators.py`: the `install` and
`uninstall` decorators, the method interception they perform on a model class,
and the lazily built per-class `architect` capability namespace.

Python state is made explicit:
* a model class is a `ClassObj` (own method dict, method resolution order,
  optional `architect` class attribute) living in a `State` heap keyed by
  `ClassId`;
* function objects bound to method slots are `Method` values: either a
  never-intercepted (pristine) implementation or a wrapper produced by a
  feature's `_decorate_<name>` factory, carrying the `original` back-reference
  and the `is_decorated` mark the source sets on them;
* the `Architect` descriptor (source lines 72-96) is an `ArchDescr` in a heap,
  its lazily built per-concrete-class cache entries are `MapEntry`s, and
  feature instances carry an allocation id so that object identity (stale
  versus live references) is observable;
* exceptions become an `Err` value returned next to the state, so that
  mutations performed before a raise are kept, as in Python.

The registry, `BaseFeature`, and the exception classes are imported by the
source from modules outside the repository snapshot; they enter the model as
the `Registry` parameter, the fact that namespace entries holding feature
instances are exactly the `BaseFeature`-typed attributes, and the `Err`
constructors.
-/

namespace Architect

/-! ## Association-list dictionaries (Python `dict` with insertion order) -/

/-- Ordered-dictionary lookup: first entry with the given key. -/
def dlookup [DecidableEq α] (k : α) : List (α × β) → Option β
  | [] => none
  | (k', v) :: t => if k' = k then some v else dlookup k t

/-- Python `d[k] = v`: replace in place if the key exists, else append,
preserving insertion order. -/
def dinsert [DecidableEq α] (k : α) (v : β) : List (α × β) → List (α × β)
  | [] => [(k, v)]
  | (k', v') :: t => if k' = k then (k, v) :: t else (k', v') :: dinsert k v t

/-- Python `del d[k]`: drop the entry with the given key. -/
def dremove [DecidableEq α] (k : α) : List (α × β) → List (α × β)
  | [] => []
  | (k', v') :: t => if k' = k then t else (k', v') :: dremove k t

/-! ## Data model -/

/-- Names of intercepted methods (Python attribute names). -/
abbrev MethodName := String

/-- Feature names, the keys of the per-ORM registry. -/
abbrev FeatureName := String

/-- Identity of a model class object. -/
abbrev ClassId := Nat

/-- Feature options, a Python keyword dictionary (values abstracted to strings). -/
abbrev Options := List (String × String)

/-- A feature class registered for an ORM: its identity, the ordered list of
model methods it decorates (`decorate`), and its declared dependency feature
names (`dependencies`).  The `_decorate_<name>` wrapper factories are the
class's own functions, so a wrapper is determined by (feature class, method
name, original function); `fid` keeps distinct registered classes distinct. -/
structure FeatureClass where
  fid : Nat
  decorate : List MethodName
  dependencies : List FeatureName
deriving DecidableEq, Repr

/-- A function object bound to a model method slot.  `pristine i` is an
implementation never produced by interception (no `is_decorated` mark);
`decorated fc n orig` is `functools.wraps(orig)(fc._decorate_n(orig))` with
`is_decorated = True` and `original = orig` set on it (source lines 124-126). -/
inductive Method where
  | pristine (impl : Nat)
  | decorated (fc : FeatureClass) (mname : MethodName) (original : Method)
deriving DecidableEq, Repr

/-- The `is_decorated` attribute, defaulting to `False` (source line 118). -/
def Method.is_decorated : Method → Bool
  | .pristine _ => false
  | .decorated _ _ _ => true

/-- The `original` attribute: present only on wrappers (source line 125). -/
def Method.origOf : Method → Option Method
  | .pristine _ => none
  | .decorated _ _ o => some o

/-- One step of `if original.is_decorated: original = original.original`
(source lines 118-119). -/
def interceptOriginal : Method → Method
  | .decorated _ _ o => o
  | m => m

/-- The implementation a slot held before any interception: follow `original`
back-references all the way down. -/
def Method.root : Method → Method
  | .pristine i => .pristine i
  | .decorated _ _ o => o.root

/-- The per-ORM feature registry `registry[orm]` (from the external
`.registry` module): feature name to feature class, as an ordered dict. -/
abbrev Registry := List (FeatureName × FeatureClass)

/-- The value of install's `self.features[name]`: `{'class': ..., 'options': ...}`
(source lines 57 and 129-132). -/
structure FeatureRecord where
  cls : FeatureClass
  options : Options
deriving DecidableEq, Repr

/-- A live feature instance `options['class'](model_obj, model_cls, **options)`
(source lines 84-85).  `iid` is its allocation identity, so staleness of
references is observable. -/
structure FeatureInstance where
  iid : Nat
  cls : FeatureClass
  model_obj : Option Nat
  model_cls : ClassId
  options : Options
deriving DecidableEq, Repr

/-- One cache entry `self.map[model_cls]` of the `Architect` descriptor
(source lines 80-88): the `'features'` dict, and the generated namespace class
`type('Architect', (object,), dict(features, __module__='architect'))`.
The generated class's `__dict__` holds the same feature-instance objects as
the `'features'` dict; `archKeys` records which of its feature attributes are
still present (`delattr` removes from the class only), `hasModule` whether its
`__module__` attribute is still present, and `gid` is the class object's
identity. -/
structure MapEntry where
  features : List (FeatureName × FeatureInstance)
  archKeys : List FeatureName
  hasModule : Bool
  gid : Nat
deriving DecidableEq, Repr

/-- An `Architect` descriptor object (source lines 72-96): the `features` dict
it closed over and its per-concrete-class cache `map`. -/
structure ArchDescr where
  features : List (FeatureName × FeatureRecord)
  map : List (ClassId × MapEntry)
deriving DecidableEq, Repr

/-- A model class: name, method resolution order (itself first, then
ancestors), its own method dict, and its own `architect` class attribute
(a descriptor id), if one was ever assigned to it directly. -/
structure ClassObj where
  name : String
  mro : List ClassId
  methods : List (MethodName × Method)
  architectD : Option Nat
deriving DecidableEq, Repr

/-- The mutable world: model classes, `Architect` descriptor objects, and an
allocation counter for fresh object identities. -/
structure State where
  classes : List (ClassId × ClassObj)
  descriptors : List (Nat × ArchDescr)
  fresh : Nat
deriving DecidableEq, Repr

/-- Exceptions raised by the source (the exception classes live in the external
`..exceptions` module; only their kind and payload matter).  `attributeError`
is Python's builtin `AttributeError`; `recursionError` its `RecursionError`
(the embedding's fuel exhaustion); `internalError` marks heap lookups that
cannot fail for states produced by the operations. -/
inductive Err where
  | featureInstallError (current : FeatureName) (model : String) (allowed : List FeatureName)
  | methodAutoDecorateError (current : MethodName) (model : String)
  | featureUninstallError (current : FeatureName) (model : String) (allowed : List FeatureName)
  | attributeError (attr : String)
  | recursionError
  | internalError
deriving DecidableEq, Repr

/-! ## State accessors -/

/-- Fetch a class object from the heap. -/
def State.getClass (st : State) (c : ClassId) : Option ClassObj :=
  dlookup c st.classes

/-- Python's class-attribute lookup for a method name along an MRO. -/
def getMethodAux (st : State) (n : MethodName) : List ClassId → Option Method
  | [] => none
  | c :: rest =>
    match st.getClass c with
    | none => getMethodAux st n rest
    | some co =>
      match dlookup n co.methods with
      | some m => some m
      | none => getMethodAux st n rest

/-- `getattr(model, name)` for a method slot (source line 116). -/
def getMethod (st : State) (c : ClassId) (n : MethodName) : Option Method :=
  match st.getClass c with
  | none => none
  | some co => getMethodAux st n co.mro

/-- `setattr(model, name, value)` for a method slot (source line 127): always
writes the receiving class's own dict. -/
def setMethod (st : State) (c : ClassId) (n : MethodName) (m : Method) : State :=
  { st with classes := st.classes.map fun p =>
      if p.1 = c then (p.1, { p.2 with methods := dinsert n m p.2.methods }) else p }

/-- Attribute lookup for the `architect` class attribute along an MRO. -/
def getArchAux (st : State) : List ClassId → Option Nat
  | [] => none
  | c :: rest =>
    match st.getClass c with
    | none => getArchAux st rest
    | some co =>
      match co.architectD with
      | some d => some d
      | none => getArchAux st rest

/-- Which `Architect` descriptor `model.architect` resolves to, if any
(`hasattr(model, 'architect')`, source line 53). -/
def getArchDid (st : State) (c : ClassId) : Option Nat :=
  match st.getClass c with
  | none => none
  | some co => getArchAux st co.mro

/-- `model.architect = Architect(...)` (source line 98): assigns the class's
own `architect` attribute. -/
def setArchD (st : State) (c : ClassId) (did : Nat) : State :=
  { st with classes := st.classes.map fun p =>
      if p.1 = c then (p.1, { p.2 with architectD := some did }) else p }

/-- `model.__name__`, used in exception payloads. -/
def className (st : State) (c : ClassId) : String :=
  match st.getClass c with
  | none => ""
  | some co => co.name

/-- The cache entry of descriptor `did` for concrete class `c`. -/
def lookupEntry (st : State) (did : Nat) (c : ClassId) : Option MapEntry :=
  match dlookup did st.descriptors with
  | none => none
  | some d => dlookup c d.map

/-- Store back a mutated cache entry (in place: the descriptor keeps its
identity and position). -/
def setEntry (st : State) (did : Nat) (c : ClassId) (e : MapEntry) : State :=
  match dlookup did st.descriptors with
  | none => st
  | some d =>
    { st with descriptors := dinsert did { d with map := dinsert c e d.map } st.descriptors }

/-- The `BaseFeature`-typed attributes of the generated namespace class, in
its `__dict__` order: the feature instances whose attribute `delattr` has not
removed.  (`__module__` is the one non-`BaseFeature` entry, tracked by
`MapEntry.hasModule`.) -/
def genDict (e : MapEntry) : List (FeatureName × FeatureInstance) :=
  e.features.filter fun p => p.1 ∈ e.archKeys

/-- An attribute value of the generated namespace class. -/
inductive ArchAttr where
  | featureInst (inst : FeatureInstance)
  | moduleStr (s : String)
deriving DecidableEq, Repr

/-- `getattr` on the generated namespace class: a still-present feature
attribute, or the `'architect'` string stored under `__module__` next to them
(source lines 87-88).  Partial model: the real class built by
`type('Architect', (object,), ...)` additionally exposes the attributes the
runtime itself contributes — `'__doc__'`, `'__dict__'`, `'__weakref__'` in
its own dict and everything inherited from `object` and `type`
(`'__init__'`, `'mro'`, ...), whose exact census is interpreter-defined.
This model tracks `'__module__'` as the representative non-feature attribute
and returns `none` for the rest, so it is faithful only for attribute names
outside that ambient set; `uninstall` runs that reach a feature instance
never consult it on an ambient name. -/
def getattrArch (e : MapEntry) (attr : String) : Option ArchAttr :=
  match dlookup attr (genDict e) with
  | some i => some (.featureInst i)
  | none =>
    if attr = "__module__" ∧ e.hasModule = true then some (.moduleStr "architect") else none

/-! ## The `Architect` descriptor's `__get__` (source lines 77-96) -/

/-- Build the `'features'` dict of a fresh cache entry: one feature instance
`options['class'](model_obj, model_cls, **options['options'])` per record, in
dict order, drawing fresh identities (source lines 83-85). -/
def buildInstances (obj : Option Nat) (cls : ClassId) :
    List (FeatureName × FeatureRecord) → Nat → List (FeatureName × FeatureInstance) × Nat
  | [], fresh => ([], fresh)
  | (n, r) :: rest, fresh =>
    let inst : FeatureInstance := ⟨fresh, r.cls, obj, cls, r.options⟩
    let (tail, fresh') := buildInstances obj cls rest (fresh + 1)
    ((n, inst) :: tail, fresh')

/-- Source lines 92-94: on bound access, every cached feature instance's
`model_obj` field is overwritten with the accessing instance. -/
def setInstances (obj : Nat) (e : MapEntry) : MapEntry :=
  { e with features := e.features.map fun p => (p.1, { p.2 with model_obj := some obj }) }

/-- `Architect.__get__(model_obj, model_cls)` on descriptor `did`: build the
cache entry for the concrete class on first access (allocating the feature
instances and the generated class), rebind `model_obj` on bound access, and
return the generated class (the entry).  `none` only for a dangling
descriptor id, which states produced by the operations never contain. -/
def archGet (st : State) (did : Nat) (model_cls : ClassId) (model_obj : Option Nat) :
    Option (State × MapEntry) :=
  match dlookup did st.descriptors with
  | none => none
  | some d =>
    let (st1, entry) :=
      match dlookup model_cls d.map with
      | some e => (st, e)
      | none =>
        let (insts, fresh') := buildInstances model_obj model_cls d.features st.fresh
        let e : MapEntry := ⟨insts, insts.map Prod.fst, true, fresh'⟩
        ({ st with
            descriptors := dinsert did { d with map := dinsert model_cls e d.map } st.descriptors,
            fresh := fresh' + 1 }, e)
    match model_obj with
    | none => some (st1, entry)
    | some o =>
      let e2 := setInstances o entry
      some (setEntry st1 did model_cls e2, e2)

/-- Evaluate `model.architect` through the class (unbound access) and view the
generated namespace class: its identity and its feature attributes. -/
def accessNamespace (st : State) (c : ClassId) :
    Option (State × Nat × List (FeatureName × FeatureInstance)) :=
  match getArchDid st c with
  | none => none
  | some did =>
    match archGet st did c none with
    | none => none
    | some (st', e) => some (st', e.gid, genDict e)

/-! ## `install` (source lines 18-138) -/

/-- The mutable fields of an `install` decorator object (source lines 28-30):
the features gathered so far, the requested feature, and the per-feature and
shared (`'global'`) option dicts. -/
structure InstallSelf where
  features : List (FeatureName × FeatureRecord)
  feature : FeatureName
  optFeature : Options
  optGlobal : Options
deriving DecidableEq, Repr

/-- The method-decoration loop of `init_feature` (source lines 114-127): for
each name the feature decorates, resolve the slot (failing with
`MethodAutoDecorateError` when the model lacks it), step back to the recorded
original if the current method is already decorated, wrap, and bind the
wrapper — marked decorated, with its `original` back-reference — on the model. -/
def decorateMethods (fc : FeatureClass) (model : ClassId) :
    List MethodName → State → State × Option Err
  | [], st => (st, none)
  | n :: rest, st =>
    match getMethod st model n with
    | none => (st, some (.methodAutoDecorateError n (className st model)))
    | some m =>
      decorateMethods fc model rest (setMethod st model n (.decorated fc n (interceptOriginal m)))

/-- `install.init_feature` (source lines 101-138): resolve the feature class
(failing with `FeatureInstallError` listing the registry's keys), decorate its
methods, record it in `self.features` — with the per-feature options when it
is the requested feature, else the shared options — and recurse into its
declared dependencies, in declared order, after the feature itself.
(`register_hooks`, lines 134-135, is a hook on the external feature class
with no modelled state.)  The dependency loop is a fold that short-circuits
once an exception value is present, exactly the early exit of a raise; fuel
stands for Python's recursion limit on cyclic dependency graphs. -/
def init_feature (reg : Registry) : Nat → FeatureName → ClassId → InstallSelf → State →
    InstallSelf × State × Option Err
  | 0, _, _, self, st => (self, st, some .recursionError)
  | fuel + 1, f, model, self, st =>
    match dlookup f reg with
    | none => (self, st, some (.featureInstallError f (className st model) (reg.map Prod.fst)))
    | some feature_cls =>
      match decorateMethods feature_cls model feature_cls.decorate st with
      | (st1, some e) => (self, st1, some e)
      | (st1, none) =>
        let rec1 : FeatureRecord :=
          ⟨feature_cls, if f = self.feature then self.optFeature else self.optGlobal⟩
        let self1 := { self with features := dinsert f rec1 self.features }
        feature_cls.dependencies.foldl (fun acc d =>
          match acc with
          | (self2, st2, some e) => (self2, st2, some e)
          | (self2, st2, none) => init_feature reg fuel d model self2 st2) (self1, st1, none)

/-- One iteration of the dependency loop of `init_feature`. -/
def initStep (reg : Registry) (fuel : Nat) (model : ClassId)
    (acc : InstallSelf × State × Option Err) (d : FeatureName) :
    InstallSelf × State × Option Err :=
  match acc with
  | (self2, st2, some e) => (self2, st2, some e)
  | (self2, st2, none) => init_feature reg fuel d model self2 st2

/-- The dependency loop of `init_feature` (source lines 137-138). -/
def init_deps (reg : Registry) (fuel : Nat) (deps : List FeatureName) (model : ClassId)
    (self : InstallSelf) (st : State) : InstallSelf × State × Option Err :=
  deps.foldl (initStep reg fuel model) (self, st, none)

/-- The merge loop of `install.__call__` (source lines 53-57): every
`BaseFeature`-typed attribute of the existing namespace, not already gathered
by this install, is appended to `self.features` as
`{'class': obj.__class__, 'options': obj.options}`. -/
def mergeOld (self : InstallSelf) (old : List (FeatureName × FeatureInstance)) : InstallSelf :=
  old.foldl (fun s p =>
    match dlookup p.1 s.features with
    | some _ => s
    | none => { s with features := s.features ++ [(p.1, ⟨p.2.cls, p.2.options⟩)] }) self

/-- `install(feature, **options)(model)` (source lines 23-99).  The ORM name
resolution and registry loading (lines 36-47) live outside the snapshot; the
selected registry partition `registry[orm]` enters as `reg`.  After
`init_feature`, features already visible in an existing `architect` namespace
are merged into `self.features` (keeping the fresh records), the metaclass
`__setattr__` shim (line 61) runs with no modelled effect, and a brand-new
`Architect` descriptor over the merged dict — with an empty cache — is bound
as the model's own `architect` attribute. -/
def install_decorator (reg : Registry) (fuel : Nat) (feature : FeatureName) (options : Options)
    (model : ClassId) (st : State) : State × Option Err :=
  let optGlobal : Options := options.filter fun kv => kv.1 = "db"
  let optFeature : Options := dremove "orm" options
  let self0 : InstallSelf := ⟨[], feature, optFeature, optGlobal⟩
  match init_feature reg fuel feature model self0 st with
  | (_, st1, some e) => (st1, some e)
  | (self1, st1, none) =>
    let merged : Option (InstallSelf × State) :=
      match getArchDid st1 model with
      | none => some (self1, st1)
      | some did =>
        match archGet st1 did model none with
        | none => none
        | some (st2, entry) => some (mergeOld self1 (genDict entry), st2)
    match merged with
    | none => (st1, some .internalError)
    | some (self2, st2) =>
      let did := st2.fresh
      let st3 : State :=
        { st2 with descriptors := dinsert did ⟨self2.features, []⟩ st2.descriptors,
                   fresh := st2.fresh + 1 }
      (setArchD st3 model did, none)

/-! ## `uninstall` (source lines 141-184) -/

/-- Keep the first occurrence of each element. -/
def dedupFirst [DecidableEq α] : List α → List α
  | [] => []
  | a :: t => a :: (dedupFirst t).filter fun x => x ≠ a

/-- All method names visible along an MRO. -/
def allMethodNames (st : State) : List ClassId → List MethodName
  | [] => []
  | c :: rest =>
    (match st.getClass c with
     | none => []
     | some co => co.methods.map Prod.fst) ++ allMethodNames st rest

/-- `inspect.getmembers(model, isfunction-or-ismethod)` (source line 175):
every method slot visible on the model with its resolved value.
(`getmembers` additionally sorts by name; the restore loop's per-slot effect
does not depend on the order, and resolution order is kept here.) -/
def getMembers (st : State) (c : ClassId) : List (MethodName × Method) :=
  match st.getClass c with
  | none => []
  | some co =>
    (dedupFirst (allMethodNames st co.mro)).filterMap fun n =>
      (getMethod st c n).map fun m => (n, m)

/-- One iteration of the restore loop (source lines 177-179): if the method
is marked decorated, bind its recorded `original` back on the model. -/
def restoreStep (c : ClassId) (s : State) (p : MethodName × Method) : State :=
  match p.2 with
  | .decorated _ _ o => setMethod s c p.1 o
  | .pristine _ => s

/-- Source lines 175-179: for every visible method marked decorated, bind its
recorded `original` back on the model. -/
def restoreAll (st : State) (c : ClassId) : State :=
  (getMembers st c).foldl (restoreStep c) st

/-- `delattr(model.architect, attr)` (source line 181): resolve the descriptor
and its cache entry for the model, then drop the attribute from the generated
class, raising `AttributeError` when it is absent.  Partial model, matching
`getattrArch`: of the runtime-contributed attributes of the generated class
(on which `delattr` succeeds for own-dict entries such as `'__doc__'` and
raises for inherited ones such as `'__init__'`), only `'__module__'` is
tracked; the rest take the absent-attribute branch.  Successful uninstall
runs only delete installed feature names, where the model is exact. -/
def delArch (st : State) (model : ClassId) (attr : String) : State × Option Err :=
  match getArchDid st model with
  | none => (st, some (.attributeError "architect"))
  | some did =>
    match archGet st did model none with
    | none => (st, some .internalError)
    | some (st1, e) =>
      if attr ∈ e.archKeys then
        (setEntry st1 did model { e with archKeys := e.archKeys.erase attr }, none)
      else if attr = "__module__" then
        if e.hasModule then (setEntry st1 did model { e with hasModule := false }, none)
        else (st1, some (.attributeError attr))
      else (st1, some (.attributeError attr))

/-- `uninstall.deinit_feature` (source lines 158-184).  `getattr(model.architect,
feature)` is tried first; on `AttributeError` the handler recomputes
`model.architect` to list the installed features in a `FeatureUninstallError` —
so when the model has no `architect` attribute at all, the handler's own
access raises the `AttributeError` again and it escapes unhandled.  On
success, every decorated method on the model is restored, the feature's
attribute is deleted from the namespace class, and the feature's declared
dependencies are deinitialized in turn — reading `.dependencies` off the
fetched attribute, which fails with `AttributeError` when the attribute was
not a feature instance (e.g. the `__module__` string).  The dependency loop
is a fold that short-circuits once an exception value is present. -/
def deinit_feature : Nat → FeatureName → ClassId → State → State × Option Err
  | 0, _, _, st => (st, some .recursionError)
  | fuel + 1, feature, model, st =>
    match getArchDid st model with
    | none => (st, some (.attributeError "architect"))
    | some did =>
      match archGet st did model none with
      | none => (st, some .internalError)
      | some (st1, entry) =>
        match getattrArch entry feature with
        | none =>
          (st1, some (.featureUninstallError feature (className st1 model)
            ((genDict entry).map Prod.fst)))
        | some feature_obj =>
          let st2 := restoreAll st1 model
          match delArch st2 model feature with
          | (st3, some e) => (st3, some e)
          | (st3, none) =>
            match feature_obj with
            | .moduleStr _ => (st3, some (.attributeError "dependencies"))
            | .featureInst inst =>
              inst.cls.dependencies.foldl (fun acc d =>
                match acc with
                | (st4, some e) => (st4, some e)
                | (st4, none) => deinit_feature fuel d model st4) (st3, none)

/-- One iteration of the dependency loop of `deinit_feature`. -/
def deinitStep (fuel : Nat) (model : ClassId) (acc : State × Option Err) (d : FeatureName) :
    State × Option Err :=
  match acc with
  | (st4, some e) => (st4, some e)
  | (st4, none) => deinit_feature fuel d model st4

/-- The dependency loop of `deinit_feature` (source lines 183-184). -/
def deinit_deps (fuel : Nat) (deps : List FeatureName) (model : ClassId) (st : State) :
    State × Option Err :=
  deps.foldl (deinitStep fuel model) (st, none)

/-- `uninstall(feature)(model)` (source lines 145-156). -/
def uninstall_decorator (fuel : Nat) (feature : FeatureName) (model : ClassId) (st : State) :
    State × Option Err :=
  deinit_feature fuel feature model st

/-! ## Specification-side notions -/

/-- Transitive dependency reachability in a registry: `Reaches reg f g` holds
when `g` is `f` itself or a declared dependency of a feature reachable
from `f`. -/
inductive Reaches (reg : Registry) : FeatureName → FeatureName → Prop
  | refl (f : FeatureName) : Reaches reg f f
  | head {f g d : FeatureName} {fc : FeatureClass} :
      dlookup f reg = some fc → d ∈ fc.dependencies → Reaches reg d g → Reaches reg f g

/-- Modelled from the spec (install steps 4-5): the order in which records
enter the features dict, stated on the dict alone — the feature is recorded
first, then each declared dependency is expanded depth-first in declared
order, dependencies after the depending feature.  Compared below with the
features dict `init_feature` actually produces. -/
def record_order (reg : Registry) (req : FeatureName) (optF optG : Options) :
    Nat → FeatureName → List (FeatureName × FeatureRecord) →
    Option (List (FeatureName × FeatureRecord))
  | 0, _, _ => none
  | fuel + 1, f, acc =>
    match dlookup f reg with
    | none => none
    | some fc =>
      fc.dependencies.foldl (fun acc2 d =>
        match acc2 with
        | none => none
        | some acc3 => record_order reg req optF optG fuel d acc3)
        (some (dinsert f ⟨fc, if f = req then optF else optG⟩ acc))

/-- One iteration of the dependency loop of `record_order`. -/
def recordStep (reg : Registry) (req : FeatureName) (optF optG : Options) (fuel : Nat)
    (acc2 : Option (List (FeatureName × FeatureRecord))) (d : FeatureName) :
    Option (List (FeatureName × FeatureRecord)) :=
  match acc2 with
  | none => none
  | some acc3 => record_order reg req optF optG fuel d acc3

/-- Dependency loop of `record_order`. -/
def record_deps (reg : Registry) (req : FeatureName) (optF optG : Options) (fuel : Nat)
    (deps : List FeatureName) (acc : List (FeatureName × FeatureRecord)) :
    Option (List (FeatureName × FeatureRecord)) :=
  deps.foldl (recordStep reg req optF optG fuel) (some acc)

/-- A stored wrapper's `original` back-reference is pristine (never itself a
wrapped implementation). -/
def slotOK : Method → Bool
  | .pristine _ => true
  | .decorated _ _ o => !o.is_decorated

/-- Every method stored on any class of the state has a pristine
back-reference. -/
def StateOK (st : State) : Prop :=
  ∀ p ∈ st.classes, ∀ q ∈ p.2.methods, slotOK q.2 = true

instance (st : State) : Decidable (StateOK st) :=
  decidable_of_iff (∀ p ∈ st.classes, ∀ q ∈ p.2.methods, slotOK q.2 = true) Iff.rfl

/-- The class exists and is the head of its own MRO (as Python guarantees for
every class). -/
def headSelf (st : State) (c : ClassId) : Bool :=
  match st.getClass c with
  | none => false
  | some co => co.mro.head? = some c

/-- Every method visible on the class has a pristine back-reference. -/
def viewOK (st : State) (c : ClassId) : Bool :=
  (getMembers st c).all fun p => slotOK p.2

/-- No method visible on the class is decorated (no feature installed has
touched its slots). -/
def viewUndecorated (st : State) (c : ClassId) : Bool :=
  (getMembers st c).all fun p => !p.2.is_decorated

/-- What Interceptor.restore leaves in a slot: a wrapper's recorded original,
anything else unchanged. -/
def restoredM : Option Method → Option Method
  | some (.decorated _ _ o) => some o
  | x => x

/-- The record `init_feature` writes for feature `g`: its registry class, with
the per-feature options when `g` is the requested feature, else the shared
options. -/
def canonRec (req : FeatureName) (optF optG : Options) (g : FeatureName) (fc : FeatureClass) :
    FeatureRecord :=
  ⟨fc, if g = req then optF else optG⟩

/-- How a class's method view evolves under interception: each slot is either
untouched or holds a wrapper over one `original`-step of the slot's previous
method. -/
def ViewRel (v v' : MethodName → Option Method) : Prop :=
  ∀ n, v' n = v n ∨
    ∃ fc m, v n = some m ∧ v' n = some (.decorated fc n (interceptOriginal m))

/-- The operation touched no class but `model`, and on `model` only the method
dict: every other class object is unchanged, and `model`'s name, MRO and
`architect` attribute are unchanged. -/
def ClassesMeta (st st' : State) (model : ClassId) : Prop :=
  (∀ c', c' ≠ model → st'.getClass c' = st.getClass c') ∧
  (st'.getClass model).map ClassObj.mro = (st.getClass model).map ClassObj.mro ∧
  (st'.getClass model).map ClassObj.name = (st.getClass model).map ClassObj.name ∧
  (st'.getClass model).map ClassObj.architectD = (st.getClass model).map ClassObj.architectD

/-- Namespace cache entries are updated in place: every existing entry
survives as the same generated-class object (same identity, same feature
instances), possibly with attributes deleted. -/
def EntryRel (st st' : State) : Prop :=
  ∀ did c e, lookupEntry st did c = some e →
    ∃ e', lookupEntry st' did c = some e' ∧
      e'.gid = e.gid ∧ e'.features = e.features ∧ ∀ k ∈ e'.archKeys, k ∈ e.archKeys

/-! ## Concrete fixtures for witnesses and counterexamples -/

/-- A feature decorating `save`, depending on `audit`. -/
def fcPartition : FeatureClass := ⟨0, ["save"], ["audit"]⟩

/-- A dependency feature decorating `update`. -/
def fcAudit : FeatureClass := ⟨1, ["update"], []⟩

/-- An unrelated feature decorating nothing. -/
def fcPlain : FeatureClass := ⟨2, [], []⟩

/-- A second feature decorating `save`, no dependencies. -/
def fcShadow : FeatureClass := ⟨3, ["save"], []⟩

/-- A demo registry partition. -/
def regDemo : Registry :=
  [("partition", fcPartition), ("audit", fcAudit), ("plain", fcPlain), ("shadow", fcShadow)]

/-- A model class with two pristine methods and no features. -/
def stDemo : State :=
  ⟨[(0, ⟨"Model", [0], [("save", .pristine 0), ("update", .pristine 1)], none⟩)], [], 1⟩

/-- `stDemo` after installing `partition` (hence `audit`). -/
def stDemo1 : State := (install_decorator regDemo 9 "partition" [] 0 stDemo).1

/-- `stDemo1` with its capability namespace built by one unbound access. -/
def stDemo2 : State :=
  match accessNamespace stDemo1 0 with
  | some (s, _, _) => s
  | none => stDemo1

/-- A base class with a built namespace holding feature `f`, and a subclass
inheriting from it that has no own `architect` attribute. -/
def stInherit : State :=
  ⟨[(0, ⟨"Base", [0], [("save", .pristine 0)], some 0⟩),
    (1, ⟨"Child", [1, 0], [], none⟩)],
   [(0, ⟨[("plain", ⟨fcPlain, []⟩)],
         [(0, ⟨[("plain", ⟨1, fcPlain, none, 0, []⟩)], ["plain"], true, 2⟩)]⟩)], 3⟩

/-- The namespace cache entry `stDemo2` holds for the demo model (descriptor
1, concrete class 0): the two feature instances built on first access. -/
def eDemo : MapEntry :=
  ⟨[("partition", ⟨2, fcPartition, none, 0, []⟩), ("audit", ⟨3, fcAudit, none, 0, []⟩)],
   ["partition", "audit"], true, 4⟩

/-- The cache entry `stInherit` holds for the base class (descriptor 0,
concrete class 0). -/
def eBase : MapEntry :=
  ⟨[("plain", ⟨1, fcPlain, none, 0, []⟩)], ["plain"], true, 2⟩

/-- Demo install options: a shared `db` key, a feature-only key, and an `orm`
key that the constructor pops. -/
def oDemo : Options := [("db", "s"), ("other", "o"), ("orm", "x")]

/-! ## Dictionary lemmas -/

@[simp] theorem dlookup_nil [DecidableEq α] (k : α) :
    dlookup k ([] : List (α × β)) = none := rfl

@[simp] theorem dlookup_cons [DecidableEq α] (k k' : α) (v : β) (t : List (α × β)) :
    dlookup k ((k', v) :: t) = if k' = k then some v else dlookup k t := rfl

theorem dlookup_dinsert_self [DecidableEq α] (k : α) (v : β) (l : List (α × β)) :
    dlookup k (dinsert k v l) = some v := by
  induction l with
  | nil => simp [dinsert]
  | cons p t ih =>
    obtain ⟨k', v'⟩ := p
    by_cases h : k' = k <;> simp [dinsert, h, ih]

theorem dlookup_dinsert_ne [DecidableEq α] {k k' : α} (h : k ≠ k') (v : β) (l : List (α × β)) :
    dlookup k' (dinsert k v l) = dlookup k' l := by
  induction l with
  | nil => simp [dinsert, h]
  | cons p t ih =>
    obtain ⟨k'', v''⟩ := p
    by_cases h2 : k'' = k
    · subst h2
      simp [dinsert, h]
    · simp [dinsert, h2, ih]

theorem mem_dinsert [DecidableEq α] {p : α × β} {k : α} {v : β} {l : List (α × β)}
    (h : p ∈ dinsert k v l) : p ∈ l ∨ p = (k, v) := by
  induction l with
  | nil => simp [dinsert] at h; exact Or.inr h
  | cons q t ih =>
    obtain ⟨k', v'⟩ := q
    by_cases h2 : k' = k
    · simp [dinsert, h2] at h
      rcases h with h | h
      · exact Or.inr (by simp [h])
      · exact Or.inl (List.mem_cons_of_mem _ h)
    · simp only [dinsert, h2, if_false, List.mem_cons] at h
      rcases h with h | h
      · exact Or.inl (by simp [h])
      · rcases ih h with h3 | h3
        · exact Or.inl (List.mem_cons_of_mem _ h3)
        · exact Or.inr h3

theorem dlookup_isSome_dinsert [DecidableEq α] {k' : α} (k : α) (v : β) {l : List (α × β)}
    (h : (dlookup k' l).isSome) : (dlookup k' (dinsert k v l)).isSome := by
  by_cases hk : k = k'
  · subst hk; simp [dlookup_dinsert_self]
  · rwa [dlookup_dinsert_ne hk]

theorem dlookup_mem [DecidableEq α] {k : α} {v : β} {l : List (α × β)}
    (h : dlookup k l = some v) : (k, v) ∈ l := by
  induction l with
  | nil => simp [dlookup] at h
  | cons p t ih =>
    obtain ⟨k', v'⟩ := p
    by_cases h2 : k' = k
    · subst h2
      rw [dlookup_cons, if_pos rfl] at h
      injection h with h
      subst h
      exact List.mem_cons_self _ _
    · simp only [dlookup_cons, h2, if_false] at h
      exact List.mem_cons_of_mem _ (ih h)

theorem dlookup_append [DecidableEq α] (k : α) (l l' : List (α × β)) :
    dlookup k (l ++ l') =
      match dlookup k l with
      | some v => some v
      | none => dlookup k l' := by
  induction l with
  | nil => simp
  | cons p t ih =>
    obtain ⟨k', v'⟩ := p
    by_cases h : k' = k <;> simp [h, ih]

theorem dlookup_dremove_ne [DecidableEq α] {k k' : α} (h : k ≠ k') (l : List (α × β)) :
    dlookup k' (dremove k l) = dlookup k' l := by
  induction l with
  | nil => simp [dremove]
  | cons p t ih =>
    obtain ⟨k'', v''⟩ := p
    by_cases h2 : k'' = k
    · subst h2
      simp [dremove, (by exact fun hc => h hc : k'' = k' → False), ih]
    · simp [dremove, h2, ih]

/-- Updating values at one key of an association list, seen through lookup. -/
theorem dlookup_map_update [DecidableEq α] (c : α) (g : β → β) (l : List (α × β)) (k : α) :
    dlookup k (l.map fun p => if p.1 = c then (p.1, g p.2) else p) =
      if k = c then (dlookup k l).map g else dlookup k l := by
  induction l with
  | nil => by_cases h : k = c <;> simp [h]
  | cons p t ih =>
    obtain ⟨k', v'⟩ := p
    by_cases h1 : k' = c
    · subst h1
      by_cases h2 : k' = k
      · subst h2
        simp [ih]
      · have hk : k ≠ k' := fun hh => h2 hh.symm
        simp [h2, hk, ih]
    · by_cases h2 : k' = k
      · subst h2
        simp [h1]
      · simp [h1, h2, ih]

/-! ## State accessor lemmas -/

theorem getClass_setMethod (st : State) (c : ClassId) (n : MethodName) (m : Method) (c' : ClassId) :
    (setMethod st c n m).getClass c' =
      if c' = c then (st.getClass c').map (fun co => { co with methods := dinsert n m co.methods })
      else st.getClass c' := by
  unfold setMethod State.getClass
  exact dlookup_map_update c (fun co => { co with methods := dinsert n m co.methods }) st.classes c'

theorem getClass_setArchD (st : State) (c : ClassId) (d : Nat) (c' : ClassId) :
    (setArchD st c d).getClass c' =
      if c' = c then (st.getClass c').map (fun co => { co with architectD := some d })
      else st.getClass c' := by
  unfold setArchD State.getClass
  exact dlookup_map_update c (fun co => { co with architectD := some d }) st.classes c'

@[simp] theorem setMethod_descriptors (st : State) (c : ClassId) (n : MethodName) (m : Method) :
    (setMethod st c n m).descriptors = st.descriptors := rfl

@[simp] theorem setMethod_fresh (st : State) (c : ClassId) (n : MethodName) (m : Method) :
    (setMethod st c n m).fresh = st.fresh := rfl

@[simp] theorem setArchD_descriptors (st : State) (c : ClassId) (d : Nat) :
    (setArchD st c d).descriptors = st.descriptors := rfl

@[simp] theorem setArchD_fresh (st : State) (c : ClassId) (d : Nat) :
    (setArchD st c d).fresh = st.fresh := rfl

@[simp] theorem setEntry_classes (st : State) (did : Nat) (c : ClassId) (e : MapEntry) :
    (setEntry st did c e).classes = st.classes := by
  unfold setEntry
  cases dlookup did st.descriptors <;> rfl

@[simp] theorem setEntry_fresh (st : State) (did : Nat) (c : ClassId) (e : MapEntry) :
    (setEntry st did c e).fresh = st.fresh := by
  unfold setEntry
  cases dlookup did st.descriptors <;> rfl

theorem headSelf_elim {st : State} {c : ClassId} (h : headSelf st c = true) :
    ∃ co rest, st.getClass c = some co ∧ co.mro = c :: rest := by
  unfold headSelf at h
  cases hcl : st.getClass c with
  | none => rw [hcl] at h; simp at h
  | some co =>
    rw [hcl] at h
    have h2 : co.mro.head? = some c := of_decide_eq_true h
    cases hm : co.mro with
    | nil => rw [hm] at h2; simp at h2
    | cons a rest =>
      rw [hm] at h2
      simp only [List.head?_cons, Option.some.injEq] at h2
      exact ⟨co, rest, rfl, by rw [hm, h2]⟩

theorem headSelf_intro {st : State} {c : ClassId} {co : ClassObj} {rest : List ClassId}
    (h1 : st.getClass c = some co) (h2 : co.mro = c :: rest) : headSelf st c = true := by
  unfold headSelf
  rw [h1]
  simp [h2]

/-- `ClassesMeta` holds reflexively. -/
theorem classesMeta_refl (st : State) (model : ClassId) : ClassesMeta st st model :=
  ⟨fun _ _ => Eq.refl _, Eq.refl _, Eq.refl _, Eq.refl _⟩

/-- `ClassesMeta` composes. -/
theorem ClassesMeta.trans {st1 st2 st3 : State} {model : ClassId}
    (h12 : ClassesMeta st1 st2 model) (h23 : ClassesMeta st2 st3 model) :
    ClassesMeta st1 st3 model := by
  obtain ⟨a12, b12, c12, d12⟩ := h12
  obtain ⟨a23, b23, c23, d23⟩ := h23
  refine ⟨fun c' hc => (a23 c' hc).trans (a12 c' hc), ?_, ?_, ?_⟩
  · exact b23.trans b12
  · exact c23.trans c12
  · exact d23.trans d12

theorem ClassesMeta.setMethod (st : State) (c : ClassId) (n : MethodName) (m : Method) :
    ClassesMeta st (setMethod st c n m) c := by
  refine ⟨fun c' hc => ?_, ?_, ?_, ?_⟩
  · rw [getClass_setMethod, if_neg hc]
  · rw [getClass_setMethod, if_pos rfl]
    cases st.getClass c <;> rfl
  · rw [getClass_setMethod, if_pos rfl]
    cases st.getClass c <;> rfl
  · rw [getClass_setMethod, if_pos rfl]
    cases st.getClass c <;> rfl

theorem ClassesMeta.setArchD_self (st : State) (c : ClassId) (d : Nat) :
    (∀ c', c' ≠ c → (setArchD st c d).getClass c' = st.getClass c') ∧
    ((setArchD st c d).getClass c).map ClassObj.mro = (st.getClass c).map ClassObj.mro ∧
    ((setArchD st c d).getClass c).map ClassObj.name = (st.getClass c).map ClassObj.name := by
  refine ⟨fun c' hc => ?_, ?_, ?_⟩
  · rw [getClass_setArchD, if_neg hc]
  · rw [getClass_setArchD, if_pos rfl]
    cases st.getClass c <;> rfl
  · rw [getClass_setArchD, if_pos rfl]
    cases st.getClass c <;> rfl

/-- From `ClassesMeta`, the `architect` attribute of every class is unchanged. -/
theorem ClassesMeta.archD_all {st st' : State} {model : ClassId}
    (h : ClassesMeta st st' model) (cid : ClassId) :
    (st'.getClass cid).map ClassObj.architectD = (st.getClass cid).map ClassObj.architectD := by
  by_cases hc : cid = model
  · subst hc; exact h.2.2.2
  · rw [h.1 cid hc]

theorem ClassesMeta.mro_all {st st' : State} {model : ClassId}
    (h : ClassesMeta st st' model) (cid : ClassId) :
    (st'.getClass cid).map ClassObj.mro = (st.getClass cid).map ClassObj.mro := by
  by_cases hc : cid = model
  · subst hc; exact h.2.1
  · rw [h.1 cid hc]

theorem ClassesMeta.name_all {st st' : State} {model : ClassId}
    (h : ClassesMeta st st' model) (cid : ClassId) :
    (st'.getClass cid).map ClassObj.name = (st.getClass cid).map ClassObj.name := by
  by_cases hc : cid = model
  · subst hc; exact h.2.2.1
  · rw [h.1 cid hc]

theorem getArchAux_congr {st st' : State}
    (h : ∀ cid, (st'.getClass cid).map ClassObj.architectD = (st.getClass cid).map ClassObj.architectD)
    (l : List ClassId) : getArchAux st' l = getArchAux st l := by
  induction l with
  | nil => rfl
  | cons x rest ih =>
    have hx := h x
    simp only [getArchAux]
    cases h1 : st.getClass x with
    | none =>
      rw [h1] at hx
      cases h2 : st'.getClass x with
      | none => exact ih
      | some co' => rw [h2] at hx; simp at hx
    | some co =>
      rw [h1] at hx
      cases h2 : st'.getClass x with
      | none => rw [h2] at hx; simp at hx
      | some co' =>
        rw [h2] at hx
        simp only [Option.map_some', Option.some.injEq] at hx
        simp only [hx]
        cases co.architectD <;> simp [ih]

/-- `getArchDid` only depends on class names, MROs and `architect` slots. -/
theorem getArchDid_of_meta {st st' : State} {model : ClassId}
    (h : ClassesMeta st st' model) (c : ClassId) : getArchDid st' c = getArchDid st c := by
  unfold getArchDid
  have hmro := h.mro_all c
  cases h1 : st.getClass c with
  | none =>
    rw [h1] at hmro
    cases h2 : st'.getClass c with
    | none => rfl
    | some co' => rw [h2] at hmro; simp at hmro
  | some co =>
    rw [h1] at hmro
    cases h2 : st'.getClass c with
    | none => rw [h2] at hmro; simp at hmro
    | some co' =>
      rw [h2] at hmro
      simp only [Option.map_some', Option.some.injEq] at hmro
      simp only [hmro]
      exact getArchAux_congr h.archD_all co.mro

theorem className_of_meta {st st' : State} {model : ClassId}
    (h : ClassesMeta st st' model) (c : ClassId) : className st' c = className st c := by
  unfold className
  have hn := h.name_all c
  cases h1 : st.getClass c with
  | none =>
    rw [h1] at hn
    cases h2 : st'.getClass c with
    | none => rfl
    | some co' => rw [h2] at hn; simp at hn
  | some co =>
    rw [h1] at hn
    cases h2 : st'.getClass c with
    | none => rw [h2] at hn; simp at hn
    | some co' =>
      rw [h2] at hn
      simp only [Option.map_some', Option.some.injEq] at hn
      simp only [hn]

theorem headSelf_of_meta {st st' : State} {model : ClassId}
    (h : ClassesMeta st st' model) (c : ClassId) : headSelf st' c = headSelf st c := by
  unfold headSelf
  have hmro := h.mro_all c
  cases h1 : st.getClass c with
  | none =>
    rw [h1] at hmro
    cases h2 : st'.getClass c with
    | none => rfl
    | some co' => rw [h2] at hmro; simp at hmro
  | some co =>
    rw [h1] at hmro
    cases h2 : st'.getClass c with
    | none => rw [h2] at hmro; simp at hmro
    | some co' =>
      rw [h2] at hmro
      simp only [Option.map_some', Option.some.injEq] at hmro
      simp only [hmro]

/-! ## Method view lemmas -/

theorem getClass_eq_of_classes {st st' : State} (h : st'.classes = st.classes) (c : ClassId) :
    st'.getClass c = st.getClass c := by
  unfold State.getClass
  rw [h]

theorem getMethodAux_eq_of_classes {st st' : State} (h : st'.classes = st.classes)
    (n : MethodName) (l : List ClassId) : getMethodAux st' n l = getMethodAux st n l := by
  induction l with
  | nil => rfl
  | cons x rest ih =>
    simp only [getMethodAux, getClass_eq_of_classes h]
    cases st.getClass x with
    | none => exact ih
    | some co =>
      cases dlookup n co.methods <;> simp [ih]

theorem getMethod_eq_of_classes {st st' : State} (h : st'.classes = st.classes)
    (c : ClassId) (n : MethodName) : getMethod st' c n = getMethod st c n := by
  unfold getMethod
  rw [getClass_eq_of_classes h]
  cases st.getClass c with
  | none => rfl
  | some co => exact getMethodAux_eq_of_classes h n co.mro

theorem getArchDid_eq_of_classes {st st' : State} (h : st'.classes = st.classes) (c : ClassId) :
    getArchDid st' c = getArchDid st c := by
  have hm : ClassesMeta st st' c :=
    ⟨fun c' _ => getClass_eq_of_classes h c', by rw [getClass_eq_of_classes h],
     by rw [getClass_eq_of_classes h], by rw [getClass_eq_of_classes h]⟩
  exact getArchDid_of_meta hm c

theorem headSelf_eq_of_classes {st st' : State} (h : st'.classes = st.classes) (c : ClassId) :
    headSelf st' c = headSelf st c := by
  unfold headSelf
  rw [getClass_eq_of_classes h]

theorem className_eq_of_classes {st st' : State} (h : st'.classes = st.classes) (c : ClassId) :
    className st' c = className st c := by
  unfold className
  rw [getClass_eq_of_classes h]

theorem getMethodAux_setMethod_ne (st : State) {n n' : MethodName} (hne : n' ≠ n)
    (c : ClassId) (m : Method) (l : List ClassId) :
    getMethodAux (setMethod st c n m) n' l = getMethodAux st n' l := by
  induction l with
  | nil => rfl
  | cons x rest ih =>
    simp only [getMethodAux, getClass_setMethod]
    by_cases hx : x = c
    · rw [if_pos hx]
      cases st.getClass x with
      | none => exact ih
      | some co =>
        simp only [Option.map_some']
        rw [dlookup_dinsert_ne (fun hh => hne hh.symm)]
        cases dlookup n' co.methods <;> simp [ih]
    · rw [if_neg hx]
      cases st.getClass x with
      | none => exact ih
      | some co => cases dlookup n' co.methods <;> simp [ih]

theorem getMethod_setMethod_ne (st : State) {n n' : MethodName} (hne : n' ≠ n)
    (c c' : ClassId) (m : Method) :
    getMethod (setMethod st c n m) c' n' = getMethod st c' n' := by
  unfold getMethod
  rw [getClass_setMethod]
  by_cases hx : c' = c
  · rw [if_pos hx]
    cases st.getClass c' with
    | none => rfl
    | some co =>
      simp only [Option.map_some']
      exact getMethodAux_setMethod_ne st hne c m co.mro
  · rw [if_neg hx]
    cases st.getClass c' with
    | none => rfl
    | some co => exact getMethodAux_setMethod_ne st hne c m co.mro

theorem getMethod_setMethod_self (st : State) {c : ClassId} (hh : headSelf st c = true)
    (n : MethodName) (m : Method) : getMethod (setMethod st c n m) c n = some m := by
  obtain ⟨co, rest, hcl, hmro⟩ := headSelf_elim hh
  unfold getMethod
  rw [getClass_setMethod, if_pos rfl, hcl]
  simp only [Option.map_some', hmro, getMethodAux, getClass_setMethod, if_pos rfl, hcl]
  simp [dlookup_dinsert_self]

/-! ## `getMembers` lemmas -/

theorem dedupFirst_mem [DecidableEq α] {x : α} {l : List α} :
    x ∈ dedupFirst l ↔ x ∈ l := by
  induction l with
  | nil => simp [dedupFirst]
  | cons a t ih =>
    simp only [dedupFirst, List.mem_cons, List.mem_filter]
    constructor
    · rintro (h | ⟨h, _⟩)
      · exact Or.inl h
      · exact Or.inr (ih.mp h)
    · rintro (h | h)
      · exact Or.inl h
      · by_cases hx : x = a
        · exact Or.inl hx
        · exact Or.inr ⟨ih.mpr h, by simp [hx]⟩

theorem dedupFirst_nodup [DecidableEq α] (l : List α) : (dedupFirst l).Nodup := by
  induction l with
  | nil => exact List.nodup_nil
  | cons a t ih =>
    refine List.nodup_cons.mpr ⟨?_, ih.filter _⟩
    intro hmem
    have := (List.mem_filter.mp hmem).2
    simp at this

theorem mem_allMethodNames_of_aux {st : State} {n : MethodName} {m : Method} :
    ∀ {l : List ClassId}, getMethodAux st n l = some m → n ∈ allMethodNames st l := by
  intro l
  induction l with
  | nil => intro h; simp [getMethodAux] at h
  | cons x rest ih =>
    intro h
    simp only [getMethodAux] at h
    simp only [allMethodNames, List.mem_append]
    cases hcl : st.getClass x with
    | none =>
      simp only [hcl] at h
      exact Or.inr (ih h)
    | some co =>
      simp only [hcl] at h
      cases hd : dlookup n co.methods with
      | none =>
        simp only [hd] at h
        exact Or.inr (ih h)
      | some m' =>
        refine Or.inl ?_
        have := dlookup_mem hd
        simp only [hcl]
        exact List.mem_map.mpr ⟨(n, m'), this, rfl⟩

theorem map_fst_filterMap_view (st : State) (c : ClassId) (l : List MethodName) :
    (l.filterMap fun n => (getMethod st c n).map fun m => (n, m)).map Prod.fst =
      l.filter fun n => (getMethod st c n).isSome := by
  induction l with
  | nil => rfl
  | cons x t ih => cases h : getMethod st c x <;> simp [h, ih]

theorem getMembers_names_nodup (st : State) (c : ClassId) :
    ((getMembers st c).map Prod.fst).Nodup := by
  unfold getMembers
  cases st.getClass c with
  | none => exact List.nodup_nil
  | some co =>
    rw [map_fst_filterMap_view]
    exact (dedupFirst_nodup _).filter _

theorem getMembers_sound {st : State} {c : ClassId} {p : MethodName × Method}
    (h : p ∈ getMembers st c) : getMethod st c p.1 = some p.2 := by
  unfold getMembers at h
  cases hcl : st.getClass c with
  | none => rw [hcl] at h; simp at h
  | some co =>
    rw [hcl] at h
    obtain ⟨n, _, hf⟩ := List.mem_filterMap.mp h
    cases hm : getMethod st c n with
    | none => rw [hm] at hf; simp at hf
    | some m =>
      rw [hm] at hf
      simp only [Option.map_some', Option.some.injEq] at hf
      rw [← hf]
      exact hm

theorem getMembers_complete {st : State} {c : ClassId} {n : MethodName} {m : Method}
    (h : getMethod st c n = some m) : (n, m) ∈ getMembers st c := by
  unfold getMembers
  have hview := h
  unfold getMethod at hview
  cases hcl : st.getClass c with
  | none => rw [hcl] at hview; simp at hview
  | some co =>
    rw [hcl] at hview
    refine List.mem_filterMap.mpr ⟨n, ?_, by rw [h]; rfl⟩
    exact dedupFirst_mem.mpr (mem_allMethodNames_of_aux hview)

theorem viewOK_spec {st : State} {c : ClassId} (h : viewOK st c = true)
    {n : MethodName} {m : Method} (hm : getMethod st c n = some m) : slotOK m = true := by
  unfold viewOK at h
  exact List.all_eq_true.mp h (n, m) (getMembers_complete hm)

theorem viewUndecorated_spec {st : State} {c : ClassId} (h : viewUndecorated st c = true)
    {n : MethodName} {m : Method} (hm : getMethod st c n = some m) :
    m.is_decorated = false := by
  unfold viewUndecorated at h
  have := List.all_eq_true.mp h (n, m) (getMembers_complete hm)
  simpa using this

/-! ## Namespace cache lemmas -/

theorem lookupEntry_setEntry_self {st : State} {did : Nat} {d : ArchDescr}
    (hd : dlookup did st.descriptors = some d) (c : ClassId) (e : MapEntry) :
    lookupEntry (setEntry st did c e) did c = some e := by
  unfold lookupEntry setEntry
  simp only [hd, dlookup_dinsert_self]

theorem lookupEntry_setEntry_ne {st : State} {did did' : Nat} {c c' : ClassId}
    (h : did' ≠ did ∨ c' ≠ c) (e : MapEntry) :
    lookupEntry (setEntry st did c e) did' c' = lookupEntry st did' c' := by
  unfold lookupEntry setEntry
  cases hd : dlookup did st.descriptors with
  | none => simp only [hd]
  | some d =>
    simp only [hd]
    by_cases hdid : did' = did
    · subst hdid
      rcases h with h | h
      · exact absurd rfl h
      · simp only [dlookup_dinsert_self, hd]
        exact dlookup_dinsert_ne (fun hh => h hh.symm) e d.map
    · rw [dlookup_dinsert_ne (fun hh => hdid hh.symm)]

theorem buildInstances_map_fst (obj : Option Nat) (cls : ClassId) :
    ∀ (l : List (FeatureName × FeatureRecord)) (fresh : Nat),
      ((buildInstances obj cls l fresh).1).map Prod.fst = l.map Prod.fst := by
  intro l
  induction l with
  | nil => intro fresh; rfl
  | cons p t ih =>
    intro fresh
    obtain ⟨n, r⟩ := p
    simp only [buildInstances, List.map_cons]
    rw [show (buildInstances obj cls t (fresh + 1)).1.map Prod.fst = t.map Prod.fst from ih _]

theorem buildInstances_dlookup {obj : Option Nat} {cls : ClassId} {g : FeatureName}
    {r : FeatureRecord} :
    ∀ {l : List (FeatureName × FeatureRecord)} (fresh : Nat), dlookup g l = some r →
      ∃ k, dlookup g (buildInstances obj cls l fresh).1 = some ⟨k, r.cls, obj, cls, r.options⟩ := by
  intro l
  induction l with
  | nil => intro fresh h; simp at h
  | cons p t ih =>
    intro fresh h
    obtain ⟨n, r'⟩ := p
    by_cases hn : n = g
    · subst hn
      rw [dlookup_cons, if_pos rfl] at h
      injection h with h
      subst h
      exact ⟨fresh, by simp [buildInstances]⟩
    · rw [dlookup_cons, if_neg hn] at h
      obtain ⟨k, hk⟩ := ih (fresh + 1) h
      exact ⟨k, by simp [buildInstances, hn, hk]⟩

theorem buildInstances_mem {obj : Option Nat} {cls : ClassId}
    {p : FeatureName × FeatureInstance} :
    ∀ {l : List (FeatureName × FeatureRecord)} {fresh : Nat},
      p ∈ (buildInstances obj cls l fresh).1 →
      ∃ r, (p.1, r) ∈ l ∧ p.2.cls = r.cls ∧ p.2.options = r.options ∧
        p.2.model_obj = obj ∧ p.2.model_cls = cls := by
  intro l
  induction l with
  | nil => intro fresh h; simp [buildInstances] at h
  | cons q t ih =>
    intro fresh h
    obtain ⟨n, r'⟩ := q
    simp only [buildInstances, List.mem_cons] at h
    rcases h with h | h
    · subst h
      exact ⟨r', List.mem_cons_self _ _, rfl, rfl, rfl, rfl⟩
    · obtain ⟨r, hr, h1, h2, h3, h4⟩ := ih h
      exact ⟨r, List.mem_cons_of_mem _ hr, h1, h2, h3, h4⟩

theorem buildInstances_fresh_le (obj : Option Nat) (cls : ClassId) :
    ∀ (l : List (FeatureName × FeatureRecord)) (fr : Nat),
      fr ≤ (buildInstances obj cls l fr).2 := by
  intro l
  induction l with
  | nil => intro fr; exact Nat.le_refl fr
  | cons p t ih =>
    intro fr
    obtain ⟨n, r⟩ := p
    simp only [buildInstances]
    exact Nat.le_trans (Nat.le_succ fr) (ih (fr + 1))

/-- A freshly built entry exposes all its features. -/
theorem genDict_of_all {e : MapEntry} (h : ∀ p ∈ e.features, p.1 ∈ e.archKeys) :
    genDict e = e.features := by
  unfold genDict
  exact List.filter_eq_self.mpr fun p hp => by
    simp only [decide_eq_true_eq]
    exact h p hp

/-- `__get__` with a cached entry returns it and leaves the state alone. -/
theorem archGet_cached {st : State} {did : Nat} {c : ClassId} {e : MapEntry}
    (h : lookupEntry st did c = some e) : archGet st did c none = some (st, e) := by
  unfold lookupEntry at h
  cases hd : dlookup did st.descriptors with
  | none =>
    simp only [hd] at h
    exact Option.noConfusion h
  | some d =>
    simp only [hd] at h
    simp only [archGet, hd, h]

/-- `__get__` on a missing entry: the entry it returns and the state it builds. -/
theorem archGet_build_entry {st st' : State} {did : Nat} {c : ClassId} {d : ArchDescr}
    {e : MapEntry} (hd : dlookup did st.descriptors = some d) (hm : dlookup c d.map = none)
    (h : archGet st did c none = some (st', e)) :
    e.features = (buildInstances none c d.features st.fresh).1 ∧
    e.archKeys = e.features.map Prod.fst ∧
    st' = { st with
      descriptors := dinsert did { d with map := dinsert c e d.map } st.descriptors,
      fresh := (buildInstances none c d.features st.fresh).2 + 1 } := by
  unfold archGet at h
  simp only [hd, hm] at h
  injection h with h
  injection h with h1 h2
  subst h2
  subst h1
  exact ⟨rfl, rfl, rfl⟩

/-- Whatever unbound `__get__` does, the class heap is untouched. -/
theorem archGet_classes {st st' : State} {did : Nat} {c : ClassId} {e : MapEntry}
    (h : archGet st did c none = some (st', e)) : st'.classes = st.classes := by
  unfold archGet at h
  cases hd : dlookup did st.descriptors with
  | none =>
    simp only [hd] at h
    exact Option.noConfusion h
  | some d =>
    cases hm : dlookup c d.map with
    | some e0 =>
      simp only [hd, hm] at h
      injection h with h
      injection h with h1 h2
      subst h1
      rfl
    | none =>
      simp only [hd, hm] at h
      injection h with h
      injection h with h1 h2
      subst h1
      rfl

/-- Unbound `__get__` leaves every pre-existing cache entry in place. -/
theorem archGet_pres {st st' : State} {did : Nat} {c : ClassId} {e : MapEntry}
    (h : archGet st did c none = some (st', e)) :
    ∀ did' c' e', lookupEntry st did' c' = some e' → lookupEntry st' did' c' = some e' := by
  intro did' c' e' he'
  unfold archGet at h
  cases hd : dlookup did st.descriptors with
  | none =>
    simp only [hd] at h
    exact Option.noConfusion h
  | some d =>
    cases hm : dlookup c d.map with
    | some e0 =>
      simp only [hd, hm] at h
      injection h with h
      injection h with h1 h2
      subst h1
      exact he'
    | none =>
      simp only [hd, hm] at h
      injection h with h
      injection h with h1 h2
      subst h1
      unfold lookupEntry at he' ⊢
      by_cases hdid : did' = did
      · subst hdid
        simp only [dlookup_dinsert_self]
        simp only [hd] at he'
        have hcc : c' ≠ c := by
          intro hcc
          rw [hcc, hm] at he'
          exact Option.noConfusion he'
        rw [dlookup_dinsert_ne (fun hh => hcc hh.symm)]
        exact he'
      · rw [dlookup_dinsert_ne (fun hh => hdid hh.symm)]
        exact he'

/-- Unbound `__get__` returns the entry now cached for the class. -/
theorem archGet_lookupEntry {st st' : State} {did : Nat} {c : ClassId} {e : MapEntry}
    (h : archGet st did c none = some (st', e)) : lookupEntry st' did c = some e := by
  unfold archGet at h
  cases hd : dlookup did st.descriptors with
  | none =>
    simp only [hd] at h
    exact Option.noConfusion h
  | some d =>
    cases hm : dlookup c d.map with
    | some e0 =>
      simp only [hd, hm] at h
      injection h with h
      injection h with h1 h2
      subst h1
      subst h2
      unfold lookupEntry
      simp only [hd, hm]
    | none =>
      simp only [hd, hm] at h
      injection h with h
      injection h with h1 h2
      subst h1
      subst h2
      unfold lookupEntry
      simp only [dlookup_dinsert_self]

/-- `__get__` never lowers the allocation counter. -/
theorem archGet_fresh_le {st st' : State} {did : Nat} {c : ClassId} {e : MapEntry}
    (h : archGet st did c none = some (st', e)) : st.fresh ≤ st'.fresh := by
  unfold archGet at h
  cases hd : dlookup did st.descriptors with
  | none =>
    simp only [hd] at h
    exact Option.noConfusion h
  | some d =>
    cases hm : dlookup c d.map with
    | some e0 =>
      simp only [hd, hm] at h
      injection h with h
      injection h with h1 h2
      subst h1
      exact Nat.le_refl _
    | none =>
      simp only [hd, hm] at h
      injection h with h
      injection h with h1 h2
      subst h1
      exact Nat.le_trans (buildInstances_fresh_le none c d.features st.fresh) (Nat.le_succ _)

/-! ## Interception-step lemmas -/

theorem interceptOriginal_decorated (fc : FeatureClass) (n : MethodName) (o : Method) :
    interceptOriginal (.decorated fc n o) = o := rfl

theorem slotOK_interceptOriginal {m : Method} (h : slotOK m = true) :
    (interceptOriginal m).is_decorated = false := by
  cases m with
  | pristine i => rfl
  | decorated fc n o =>
    unfold slotOK at h
    simp only [Bool.not_eq_true'] at h
    exact h

theorem getMethodAux_stored {st : State} {n : MethodName} {m : Method} :
    ∀ {l : List ClassId}, getMethodAux st n l = some m →
      ∃ p ∈ st.classes, ∃ q ∈ p.2.methods, q.2 = m := by
  intro l
  induction l with
  | nil => intro h; simp [getMethodAux] at h
  | cons x rest ih =>
    intro h
    simp only [getMethodAux] at h
    cases hcl : st.getClass x with
    | none =>
      simp only [hcl] at h
      exact ih h
    | some co =>
      simp only [hcl] at h
      cases hd : dlookup n co.methods with
      | none =>
        simp only [hd] at h
        exact ih h
      | some m' =>
        simp only [hd] at h
        injection h with h
        subst h
        exact ⟨(x, co), dlookup_mem hcl, (n, m'), dlookup_mem hd, rfl⟩

theorem getMethod_stored {st : State} {c : ClassId} {n : MethodName} {m : Method}
    (h : getMethod st c n = some m) :
    ∃ p ∈ st.classes, ∃ q ∈ p.2.methods, q.2 = m := by
  unfold getMethod at h
  cases hcl : st.getClass c with
  | none =>
    simp only [hcl] at h
    exact Option.noConfusion h
  | some co =>
    simp only [hcl] at h
    exact getMethodAux_stored h

/-- A stored slot resolved through any view satisfies the state invariant. -/
theorem StateOK_view {st : State} (hok : StateOK st) {c : ClassId} {n : MethodName} {m : Method}
    (h : getMethod st c n = some m) : slotOK m = true := by
  obtain ⟨p, hp, q, hq, hqe⟩ := getMethod_stored h
  have := hok p hp q hq
  rwa [hqe] at this

theorem StateOK_setMethod {st : State} {c : ClassId} {n : MethodName} {m : Method}
    (hok : StateOK st) (hm : slotOK m = true) : StateOK (setMethod st c n m) := by
  intro p hp q hq
  unfold setMethod at hp
  simp only [List.mem_map] at hp
  obtain ⟨p0, hp0, hpe⟩ := hp
  by_cases hc : p0.1 = c
  · rw [if_pos hc] at hpe
    subst hpe
    rcases mem_dinsert hq with h | h
    · exact hok p0 hp0 q h
    · rw [h]
      exact hm
  · rw [if_neg hc] at hpe
    subst hpe
    exact hok p0 hp0 q hq

theorem decorateMethods_StateOK {fc : FeatureClass} {model : ClassId} :
    ∀ {names : List MethodName} {st st' : State} {e : Option Err},
      decorateMethods fc model names st = (st', e) → StateOK st → StateOK st' := by
  intro names
  induction names with
  | nil =>
    intro st st' e h hok
    unfold decorateMethods at h
    injection h with h1 h2
    subst h1
    exact hok
  | cons n rest ih =>
    intro st st' e h hok
    unfold decorateMethods at h
    cases hm : getMethod st model n with
    | none =>
      simp only [hm] at h
      injection h with h1 h2
      subst h1
      exact hok
    | some m =>
      simp only [hm] at h
      refine ih h (StateOK_setMethod hok ?_)
      have hs := StateOK_view hok hm
      unfold slotOK
      simp [slotOK_interceptOriginal hs]

theorem decorateMethods_frame {fc : FeatureClass} {model : ClassId} :
    ∀ {names : List MethodName} {st st' : State} {e : Option Err},
      decorateMethods fc model names st = (st', e) →
      st'.descriptors = st.descriptors ∧ st'.fresh = st.fresh ∧ ClassesMeta st st' model := by
  intro names
  induction names with
  | nil =>
    intro st st' e h
    unfold decorateMethods at h
    injection h with h1 h2
    subst h1
    exact ⟨rfl, rfl, classesMeta_refl _ _⟩
  | cons n rest ih =>
    intro st st' e h
    unfold decorateMethods at h
    cases hm : getMethod st model n with
    | none =>
      simp only [hm] at h
      injection h with h1 h2
      subst h1
      exact ⟨rfl, rfl, classesMeta_refl _ _⟩
    | some m =>
      simp only [hm] at h
      obtain ⟨hd, hf, hmeta⟩ := ih h
      refine ⟨by rw [hd]; rfl, by rw [hf]; rfl, ?_⟩
      exact (ClassesMeta.setMethod st model n _).trans hmeta

theorem decorateMethods_view {fc : FeatureClass} {model : ClassId} :
    ∀ {names : List MethodName} {st st' : State},
      decorateMethods fc model names st = (st', none) → headSelf st model = true →
      ∀ n, (n ∉ names → getMethod st' model n = getMethod st model n) ∧
        (n ∈ names → ∃ m, getMethod st model n = some m ∧
          getMethod st' model n = some (.decorated fc n (interceptOriginal m))) := by
  intro names
  induction names with
  | nil =>
    intro st st' h _ n
    unfold decorateMethods at h
    injection h with h1 h2
    subst h1
    exact ⟨fun _ => rfl, fun hmem => absurd hmem (List.not_mem_nil n)⟩
  | cons x rest ih =>
    intro st st' h hhead n
    unfold decorateMethods at h
    cases hm : getMethod st model x with
    | none =>
      simp only [hm] at h
      injection h with h1 h2
      exact Option.noConfusion h2
    | some m0 =>
      simp only [hm] at h
      have hmeta := ClassesMeta.setMethod st model x (Method.decorated fc x (interceptOriginal m0))
      have hhead1 : headSelf (setMethod st model x (.decorated fc x (interceptOriginal m0))) model = true := by
        rw [headSelf_of_meta hmeta]
        exact hhead
      have IH := ih h hhead1
      by_cases hnx : n = x
      · subst hnx
        constructor
        · intro hnot
          exact absurd (List.mem_cons_self n rest) hnot
        · intro _
          by_cases hmem : n ∈ rest
          · obtain ⟨m1, hm1, hfin⟩ := (IH n).2 hmem
            rw [getMethod_setMethod_self st hhead n (.decorated fc n (interceptOriginal m0))] at hm1
            injection hm1 with hm1
            refine ⟨m0, hm, ?_⟩
            rw [hfin, ← hm1]
            rfl
          · have := (IH n).1 hmem
            rw [getMethod_setMethod_self st hhead n (.decorated fc n (interceptOriginal m0))] at this
            exact ⟨m0, hm, this⟩
      · have hne : getMethod (setMethod st model x (.decorated fc x (interceptOriginal m0))) model n
            = getMethod st model n :=
          getMethod_setMethod_ne st hnx model model _
        constructor
        · intro hnot
          have hnrest : n ∉ rest := fun hh => hnot (List.mem_cons_of_mem _ hh)
          rw [(IH n).1 hnrest, hne]
        · intro hmem
          have hnrest : n ∈ rest := by
            rcases List.mem_cons.mp hmem with h' | h'
            · exact absurd h' hnx
            · exact h'
          obtain ⟨m1, hm1, hfin⟩ := (IH n).2 hnrest
          rw [hne] at hm1
          exact ⟨m1, hm1, hfin⟩

/-! ## The `init_feature` recursion -/

/-- A successful `init_feature`/`init_deps` run decomposes into interception
steps and record steps: any relation that is reflexive, transitive, and closed
under both steps holds across every successful run. -/
theorem init_deps_nil_eq (reg : Registry) (fuel : Nat) (model : ClassId)
    (self : InstallSelf) (st : State) :
    init_deps reg fuel [] model self st = (self, st, none) := rfl

theorem init_deps_err (reg : Registry) (fuel : Nat) (model : ClassId)
    (self : InstallSelf) (st : State) (e : Err) :
    ∀ l : List FeatureName,
      List.foldl (initStep reg fuel model) (self, st, some e) l = (self, st, some e) := by
  intro l
  induction l with
  | nil => rfl
  | cons d rest ih => exact ih

theorem init_deps_cons (reg : Registry) (fuel : Nat) (d : FeatureName)
    (rest : List FeatureName) (model : ClassId) (self : InstallSelf) (st : State) :
    init_deps reg fuel (d :: rest) model self st =
      match init_feature reg fuel d model self st with
      | (self1, st1, some e) => (self1, st1, some e)
      | (self1, st1, none) => init_deps reg fuel rest model self1 st1 := by
  show List.foldl (initStep reg fuel model) (initStep reg fuel model (self, st, none) d) rest = _
  have hstep : initStep reg fuel model (self, st, none) d =
      init_feature reg fuel d model self st := rfl
  rw [hstep]
  rcases hx : init_feature reg fuel d model self st with ⟨self1, st1, e1⟩
  cases e1 with
  | some e => exact init_deps_err reg fuel model self1 st1 e rest
  | none => rfl

theorem deinit_deps_nil_eq (fuel : Nat) (model : ClassId) (st : State) :
    deinit_deps fuel [] model st = (st, none) := rfl

theorem deinit_deps_err (fuel : Nat) (model : ClassId) (st : State) (e : Err) :
    ∀ l : List FeatureName,
      List.foldl (deinitStep fuel model) (st, some e) l = (st, some e) := by
  intro l
  induction l with
  | nil => rfl
  | cons d rest ih => exact ih

theorem deinit_deps_cons (fuel : Nat) (d : FeatureName) (rest : List FeatureName)
    (model : ClassId) (st : State) :
    deinit_deps fuel (d :: rest) model st =
      match deinit_feature fuel d model st with
      | (st1, some e) => (st1, some e)
      | (st1, none) => deinit_deps fuel rest model st1 := by
  show List.foldl (deinitStep fuel model) (deinitStep fuel model (st, none) d) rest = _
  have hstep : deinitStep fuel model (st, none) d = deinit_feature fuel d model st := rfl
  rw [hstep]
  rcases hx : deinit_feature fuel d model st with ⟨st1, e1⟩
  cases e1 with
  | some e => exact deinit_deps_err fuel model st1 e rest
  | none => rfl

theorem record_deps_err (reg : Registry) (req : FeatureName) (optF optG : Options)
    (fuel : Nat) :
    ∀ l : List FeatureName,
      List.foldl (recordStep reg req optF optG fuel) none l = none := by
  intro l
  induction l with
  | nil => rfl
  | cons d rest ih => exact ih

theorem record_deps_cons (reg : Registry) (req : FeatureName) (optF optG : Options)
    (fuel : Nat) (d : FeatureName) (rest : List FeatureName)
    (acc : List (FeatureName × FeatureRecord)) :
    record_deps reg req optF optG fuel (d :: rest) acc =
      match record_order reg req optF optG fuel d acc with
      | none => none
      | some acc2 => record_deps reg req optF optG fuel rest acc2 := by
  show List.foldl (recordStep reg req optF optG fuel)
    (recordStep reg req optF optG fuel (some acc) d) rest = _
  have hstep : recordStep reg req optF optG fuel (some acc) d =
      record_order reg req optF optG fuel d acc := rfl
  rw [hstep]
  cases hx : record_order reg req optF optG fuel d acc with
  | none => exact record_deps_err reg req optF optG fuel rest
  | some acc2 => rfl

theorem init_rec_ok (reg : Registry) (model : ClassId)
    (C : InstallSelf → State → InstallSelf → State → Prop)
    (Crefl : ∀ self st, C self st self st)
    (Ctrans : ∀ s1 t1 s2 t2 s3 t3, C s1 t1 s2 t2 → C s2 t2 s3 t3 → C s1 t1 s3 t3)
    (Cdecor : ∀ fc (self : InstallSelf) st st',
      decorateMethods fc model fc.decorate st = (st', none) → C self st self st')
    (Crecord : ∀ (self : InstallSelf) st f fc, dlookup f reg = some fc →
      C self st
        { self with
          features := dinsert f ⟨fc, if f = self.feature then self.optFeature else self.optGlobal⟩ self.features }
        st) :
    ∀ fuel : Nat,
    (∀ f self st self' st', init_feature reg fuel f model self st = (self', st', none) →
      C self st self' st') ∧
    (∀ deps self st self' st', init_deps reg fuel deps model self st = (self', st', none) →
      C self st self' st') := by
  have DEPS : ∀ fuel : Nat,
      (∀ f self st self' st', init_feature reg fuel f model self st = (self', st', none) →
        C self st self' st') →
      (∀ deps self st self' st', init_deps reg fuel deps model self st = (self', st', none) →
        C self st self' st') := by
    intro fuel HF deps
    induction deps with
    | nil =>
      intro self st self' st' h
      unfold init_deps at h
      injection h with h1 h
      injection h with h2 h3
      subst h1
      subst h2
      exact Crefl _ _
    | cons d rest ih =>
      intro self st self' st' h
      rw [init_deps_cons] at h
      rcases hx : init_feature reg fuel d model self st with ⟨self1, st1, e1⟩
      rw [hx] at h
      cases e1 with
      | some err =>
        dsimp only at h
        injection h with h1 h
        injection h with h2 h3
        exact Option.noConfusion h3
      | none =>
        dsimp only at h
        exact Ctrans _ _ _ _ _ _ (HF d self st self1 st1 hx) (ih self1 st1 self' st' h)
  have HF0 : ∀ f self st self' st',
      init_feature reg 0 f model self st = (self', st', none) → C self st self' st' := by
    intro f self st self' st' h
    unfold init_feature at h
    injection h with h1 h
    injection h with h2 h3
    exact Option.noConfusion h3
  intro fuel
  induction fuel with
  | zero => exact ⟨HF0, DEPS 0 HF0⟩
  | succ fuel ih =>
    have HF : ∀ f self st self' st',
        init_feature reg (fuel + 1) f model self st = (self', st', none) →
        C self st self' st' := by
      intro f self st self' st' h
      unfold init_feature at h
      cases hreg : dlookup f reg with
      | none =>
        simp only [hreg] at h
        injection h with h1 h
        injection h with h2 h3
        exact Option.noConfusion h3
      | some fc =>
        simp only [hreg] at h
        rcases hdec : decorateMethods fc model fc.decorate st with ⟨st1, e1⟩
        rw [hdec] at h
        cases e1 with
        | some err =>
          dsimp only at h
          injection h with h1 h
          injection h with h2 h3
          exact Option.noConfusion h3
        | none =>
          dsimp only at h
          refine Ctrans _ _ _ _ _ _ (Cdecor fc self st st1 hdec) ?_
          refine Ctrans _ _ _ _ _ _ (Crecord self st1 f fc hreg) ?_
          exact DEPS fuel ih.1 _ _ _ _ _ h
    exact ⟨HF, DEPS (fuel + 1) HF⟩

theorem viewRel_refl (v : MethodName → Option Method) : ViewRel v v :=
  fun _ => Or.inl rfl

theorem viewRel_trans {a b c : MethodName → Option Method}
    (hab : ViewRel a b) (hbc : ViewRel b c) : ViewRel a c := by
  intro n
  rcases hbc n with h | ⟨fc, m1, hb, hc⟩
  · rw [h]
    exact hab n
  · rcases hab n with h' | ⟨fc', m0, ha, hb'⟩
    · rw [h'] at hb
      exact Or.inr ⟨fc, m1, hb, hc⟩
    · rw [hb'] at hb
      injection hb with hb
      subst hb
      refine Or.inr ⟨fc, m0, ha, ?_⟩
      rw [hc]
      rfl

/-- Frame facts across a successful `init_feature` run: descriptors, the
allocation counter, every other class, and the model's metadata are
untouched; the decorator's requested feature and option dicts are constant;
and the pristine-back-reference invariant is preserved. -/
theorem init_feature_ok_frame {reg : Registry} {model : ClassId} {fuel : Nat}
    {f : FeatureName} {self self' : InstallSelf} {st st' : State}
    (h : init_feature reg fuel f model self st = (self', st', none)) :
    st'.descriptors = st.descriptors ∧ st'.fresh = st.fresh ∧ ClassesMeta st st' model ∧
    self'.feature = self.feature ∧ self'.optFeature = self.optFeature ∧
    self'.optGlobal = self.optGlobal ∧ (StateOK st → StateOK st') := by
  refine ((init_rec_ok reg model
    (fun s1 t1 s2 t2 => t2.descriptors = t1.descriptors ∧ t2.fresh = t1.fresh ∧
      ClassesMeta t1 t2 model ∧ s2.feature = s1.feature ∧ s2.optFeature = s1.optFeature ∧
      s2.optGlobal = s1.optGlobal ∧ (StateOK t1 → StateOK t2))
    ?_ ?_ ?_ ?_ fuel).1) f self st self' st' h
  · intro self st
    exact ⟨rfl, rfl, classesMeta_refl _ _, rfl, rfl, rfl, id⟩
  · rintro s1 t1 s2 t2 s3 t3 ⟨d1, f1, m1, a1, b1, c1, k1⟩ ⟨d2, f2, m2, a2, b2, c2, k2⟩
    exact ⟨d2.trans d1, f2.trans f1, m1.trans m2, a2.trans a1, b2.trans b1, c2.trans c1,
      fun hok => k2 (k1 hok)⟩
  · intro fc self st st' hdec
    obtain ⟨hd, hf, hm⟩ := decorateMethods_frame hdec
    exact ⟨hd, hf, hm, rfl, rfl, rfl, fun hok => decorateMethods_StateOK hdec hok⟩
  · intro self st f fc hreg
    exact ⟨rfl, rfl, classesMeta_refl _ _, rfl, rfl, rfl, id⟩

/-- The same frame facts across a successful `init_deps` run. -/
theorem init_deps_ok_frame {reg : Registry} {model : ClassId} {fuel : Nat}
    {deps : List FeatureName} {self self' : InstallSelf} {st st' : State}
    (h : init_deps reg fuel deps model self st = (self', st', none)) :
    st'.descriptors = st.descriptors ∧ st'.fresh = st.fresh ∧ ClassesMeta st st' model ∧
    self'.feature = self.feature ∧ self'.optFeature = self.optFeature ∧
    self'.optGlobal = self.optGlobal ∧ (StateOK st → StateOK st') := by
  refine ((init_rec_ok reg model
    (fun s1 t1 s2 t2 => t2.descriptors = t1.descriptors ∧ t2.fresh = t1.fresh ∧
      ClassesMeta t1 t2 model ∧ s2.feature = s1.feature ∧ s2.optFeature = s1.optFeature ∧
      s2.optGlobal = s1.optGlobal ∧ (StateOK t1 → StateOK t2))
    ?_ ?_ ?_ ?_ fuel).2) deps self st self' st' h
  · intro self st
    exact ⟨rfl, rfl, classesMeta_refl _ _, rfl, rfl, rfl, id⟩
  · rintro s1 t1 s2 t2 s3 t3 ⟨d1, f1, m1, a1, b1, c1, k1⟩ ⟨d2, f2, m2, a2, b2, c2, k2⟩
    exact ⟨d2.trans d1, f2.trans f1, m1.trans m2, a2.trans a1, b2.trans b1, c2.trans c1,
      fun hok => k2 (k1 hok)⟩
  · intro fc self st st' hdec
    obtain ⟨hd, hf, hm⟩ := decorateMethods_frame hdec
    exact ⟨hd, hf, hm, rfl, rfl, rfl, fun hok => decorateMethods_StateOK hdec hok⟩
  · intro self st f fc hreg
    exact ⟨rfl, rfl, classesMeta_refl _ _, rfl, rfl, rfl, id⟩

/-- Across a successful `init_feature` run the model's method view evolves by
interception only: every slot is unchanged or wrapped over one
`original`-step of its previous value. -/
theorem init_feature_ok_view {reg : Registry} {model : ClassId} {fuel : Nat}
    {f : FeatureName} {self self' : InstallSelf} {st st' : State}
    (h : init_feature reg fuel f model self st = (self', st', none))
    (hhead : headSelf st model = true) :
    ViewRel (getMethod st model) (getMethod st' model) := by
  have main := ((init_rec_ok reg model
    (fun s1 t1 s2 t2 => headSelf t1 model = true →
      headSelf t2 model = true ∧ ViewRel (getMethod t1 model) (getMethod t2 model))
    ?_ ?_ ?_ ?_ fuel).1) f self st self' st' h
  · exact (main hhead).2
  · intro self st _
    exact ⟨‹_›, viewRel_refl _⟩
  · rintro s1 t1 s2 t2 s3 t3 h12 h23 hh
    obtain ⟨hh2, hv12⟩ := h12 hh
    obtain ⟨hh3, hv23⟩ := h23 hh2
    exact ⟨hh3, viewRel_trans hv12 hv23⟩
  · intro fc self st st' hdec hh
    obtain ⟨_, _, hmeta⟩ := decorateMethods_frame hdec
    refine ⟨by rw [headSelf_of_meta hmeta]; exact hh, ?_⟩
    intro n
    have hview := decorateMethods_view hdec hh n
    by_cases hmem : n ∈ fc.decorate
    · obtain ⟨m, hm, hfin⟩ := hview.2 hmem
      exact Or.inr ⟨fc, m, hm, hfin⟩
    · exact Or.inl (hview.1 hmem)
  · intro self st f fc hreg hh
    exact ⟨hh, viewRel_refl _⟩

/-- How `self.features` evolves across a successful run: the requested
feature and option dicts are constant, every key's record is unchanged or
overwritten with its canonical record, the head entry survives once
canonical, and no key is lost. -/
theorem init_features_evolution (reg : Registry) (model : ClassId) (fuel : Nat) :
    (∀ f self st self' st', init_feature reg fuel f model self st = (self', st', none) →
      (∀ g, dlookup g self'.features = dlookup g self.features ∨
        ∃ fc, dlookup g reg = some fc ∧ dlookup g self'.features =
          some (canonRec self.feature self.optFeature self.optGlobal g fc)) ∧
      (∀ g r, self.features.head? = some (g, r) →
        (∃ fc, dlookup g reg = some fc ∧
          r = canonRec self.feature self.optFeature self.optGlobal g fc) →
        self'.features.head? = some (g, r)) ∧
      (∀ g, (dlookup g self.features).isSome → (dlookup g self'.features).isSome)) ∧
    (∀ deps self st self' st', init_deps reg fuel deps model self st = (self', st', none) →
      (∀ g, dlookup g self'.features = dlookup g self.features ∨
        ∃ fc, dlookup g reg = some fc ∧ dlookup g self'.features =
          some (canonRec self.feature self.optFeature self.optGlobal g fc)) ∧
      (∀ g r, self.features.head? = some (g, r) →
        (∃ fc, dlookup g reg = some fc ∧
          r = canonRec self.feature self.optFeature self.optGlobal g fc) →
        self'.features.head? = some (g, r)) ∧
      (∀ g, (dlookup g self.features).isSome → (dlookup g self'.features).isSome)) := by
  have E := init_rec_ok reg model
    (fun s1 t1 s2 t2 =>
      s2.feature = s1.feature ∧ s2.optFeature = s1.optFeature ∧ s2.optGlobal = s1.optGlobal ∧
      (∀ g, dlookup g s2.features = dlookup g s1.features ∨
        ∃ fc, dlookup g reg = some fc ∧ dlookup g s2.features =
          some (canonRec s1.feature s1.optFeature s1.optGlobal g fc)) ∧
      (∀ g r, s1.features.head? = some (g, r) →
        (∃ fc, dlookup g reg = some fc ∧
          r = canonRec s1.feature s1.optFeature s1.optGlobal g fc) →
        s2.features.head? = some (g, r)) ∧
      (∀ g, (dlookup g s1.features).isSome → (dlookup g s2.features).isSome))
    ?_ ?_ ?_ ?_ fuel
  · exact ⟨fun f self st self' st' h => ((E.1) f self st self' st' h).2.2.2,
      fun deps self st self' st' h => ((E.2) deps self st self' st' h).2.2.2⟩
  · intro self st
    exact ⟨rfl, rfl, rfl, fun g => Or.inl rfl, fun g r hh _ => hh, fun g hs => hs⟩
  · rintro s1 t1 s2 t2 s3 t3 ⟨a1, b1, c1, ev1, hd1, mono1⟩ ⟨a2, b2, c2, ev2, hd2, mono2⟩
    refine ⟨a2.trans a1, b2.trans b1, c2.trans c1, ?_, ?_, fun g hs => mono2 g (mono1 g hs)⟩
    · intro g
      rcases ev2 g with h2 | ⟨fc, hfc, h2⟩
      · rw [h2]
        exact ev1 g
      · rw [a1, b1, c1] at h2
        exact Or.inr ⟨fc, hfc, h2⟩
    · intro g r hh hcanon
      refine hd2 g r (hd1 g r hh hcanon) ?_
      rw [a1, b1, c1]
      exact hcanon
  · intro fc self st st' hdec
    exact ⟨rfl, rfl, rfl, fun g => Or.inl rfl, fun g r hh _ => hh, fun g hs => hs⟩
  · intro self st f fc hreg
    refine ⟨rfl, rfl, rfl, ?_, ?_, ?_⟩
    · intro g
      by_cases hg : g = f
      · subst hg
        rw [dlookup_dinsert_self]
        exact Or.inr ⟨fc, hreg, rfl⟩
      · rw [dlookup_dinsert_ne (fun hh => hg hh.symm)]
        exact Or.inl rfl
    · intro g r hh hcanon
      cases hfs : self.features with
      | nil => rw [hfs] at hh; simp at hh
      | cons p t =>
        rw [hfs] at hh
        simp only [List.head?_cons, Option.some.injEq] at hh
        subst hh
        by_cases hg : g = f
        · subst hg
          obtain ⟨fc', hfc', hr⟩ := hcanon
          rw [hreg] at hfc'
          injection hfc' with hfc'
          subst hfc'
          simp only [hfs, dinsert, if_pos rfl]
          rw [hr]
          rfl
        · simp only [hfs, dinsert, if_neg hg]
          rfl
    · intro g hs
      exact dlookup_isSome_dinsert _ _ hs

/-- Every feature reachable from the installed one ends up recorded with its
canonical record: its registry class, and the per-feature options exactly when
it is the requested feature. -/
theorem init_reach_canon (reg : Registry) (model : ClassId) :
    ∀ fuel : Nat,
    (∀ f self st self' st', init_feature reg fuel f model self st = (self', st', none) →
      ∀ g, Reaches reg f g → ∃ fc, dlookup g reg = some fc ∧
        dlookup g self'.features =
          some (canonRec self.feature self.optFeature self.optGlobal g fc)) ∧
    (∀ deps self st self' st', init_deps reg fuel deps model self st = (self', st', none) →
      ∀ d, d ∈ deps → ∀ g, Reaches reg d g → ∃ fc, dlookup g reg = some fc ∧
        dlookup g self'.features =
          some (canonRec self.feature self.optFeature self.optGlobal g fc)) := by
  have DEPS : ∀ fuel : Nat,
      (∀ f self st self' st', init_feature reg fuel f model self st = (self', st', none) →
        ∀ g, Reaches reg f g → ∃ fc, dlookup g reg = some fc ∧
          dlookup g self'.features =
            some (canonRec self.feature self.optFeature self.optGlobal g fc)) →
      (∀ deps self st self' st', init_deps reg fuel deps model self st = (self', st', none) →
        ∀ d, d ∈ deps → ∀ g, Reaches reg d g → ∃ fc, dlookup g reg = some fc ∧
          dlookup g self'.features =
            some (canonRec self.feature self.optFeature self.optGlobal g fc)) := by
    intro fuel HF deps
    induction deps with
    | nil =>
      intro self st self' st' h d hd
      exact absurd hd (List.not_mem_nil d)
    | cons d0 rest ih =>
      intro self st self' st' h d hd g hreach
      rw [init_deps_cons] at h
      rcases hx : init_feature reg fuel d0 model self st with ⟨self1, st1, e1⟩
      rw [hx] at h
      cases e1 with
      | some err =>
        dsimp only at h
        injection h with h1 h
        injection h with h2 h3
        exact Option.noConfusion h3
      | none =>
        dsimp only at h
        obtain ⟨_, _, _, ha, hb, hc, _⟩ := init_feature_ok_frame hx
        rcases List.mem_cons.mp hd with hd0 | hdrest
        · subst hd0
          obtain ⟨fc, hfc, hlook⟩ := HF d self st self1 st1 hx g hreach
          have ev := ((init_features_evolution reg model fuel).2) rest self1 st1 self' st' h
          rcases ev.1 g with h' | ⟨fc2, hfc2, h'⟩
          · exact ⟨fc, hfc, by rw [h']; exact hlook⟩
          · refine ⟨fc2, hfc2, ?_⟩
            rw [h', ha, hb, hc]
        · obtain ⟨fc, hfc, hlook⟩ := ih self1 st1 self' st' h d hdrest g hreach
          rw [ha, hb, hc] at hlook
          exact ⟨fc, hfc, hlook⟩
  have HF0 : ∀ f self st self' st',
      init_feature reg 0 f model self st = (self', st', none) →
      ∀ g, Reaches reg f g → ∃ fc, dlookup g reg = some fc ∧
        dlookup g self'.features =
          some (canonRec self.feature self.optFeature self.optGlobal g fc) := by
    intro f self st self' st' h
    unfold init_feature at h
    injection h with h1 h
    injection h with h2 h3
    exact Option.noConfusion h3
  intro fuel
  induction fuel with
  | zero => exact ⟨HF0, DEPS 0 HF0⟩
  | succ fuel ih =>
    have HF : ∀ f self st self' st',
        init_feature reg (fuel + 1) f model self st = (self', st', none) →
        ∀ g, Reaches reg f g → ∃ fc, dlookup g reg = some fc ∧
          dlookup g self'.features =
            some (canonRec self.feature self.optFeature self.optGlobal g fc) := by
      intro f self st self' st' h g hreach
      unfold init_feature at h
      cases hreg : dlookup f reg with
      | none =>
        simp only [hreg] at h
        injection h with h1 h
        injection h with h2 h3
        exact Option.noConfusion h3
      | some fc =>
        simp only [hreg] at h
        rcases hdec : decorateMethods fc model fc.decorate st with ⟨st1, e1⟩
        rw [hdec] at h
        cases e1 with
        | some err =>
          dsimp only at h
          injection h with h1 h
          injection h with h2 h3
          exact Option.noConfusion h3
        | none =>
          dsimp only at h
          cases hreach with
          | refl =>
            have ev := ((init_features_evolution reg model fuel).2) _ _ _ _ _ h
            rcases ev.1 f with h' | ⟨fc2, hfc2, h'⟩
            · refine ⟨fc, hreg, ?_⟩
              rw [h']
              exact dlookup_dinsert_self _ _ _
            · rw [hreg] at hfc2
              injection hfc2 with hfc2
              subst hfc2
              exact ⟨fc, hreg, h'⟩
          | head hfc' hdmem hreach' =>
            rw [hreg] at hfc'
            injection hfc' with hfc'
            subst hfc'
            exact DEPS fuel ih.1 _ _ _ _ _ h _ hdmem g hreach'
    exact ⟨HF, DEPS (fuel + 1) HF⟩

/-- Conversely, every key present after a successful run was either present
before or is reachable from the installed feature. -/
theorem init_keys_reach (reg : Registry) (model : ClassId) :
    ∀ fuel : Nat,
    (∀ f self st self' st', init_feature reg fuel f model self st = (self', st', none) →
      ∀ g, (dlookup g self'.features).isSome →
        (dlookup g self.features).isSome ∨ Reaches reg f g) ∧
    (∀ deps self st self' st', init_deps reg fuel deps model self st = (self', st', none) →
      ∀ g, (dlookup g self'.features).isSome →
        (dlookup g self.features).isSome ∨ ∃ d ∈ deps, Reaches reg d g) := by
  have DEPS : ∀ fuel : Nat,
      (∀ f self st self' st', init_feature reg fuel f model self st = (self', st', none) →
        ∀ g, (dlookup g self'.features).isSome →
          (dlookup g self.features).isSome ∨ Reaches reg f g) →
      (∀ deps self st self' st', init_deps reg fuel deps model self st = (self', st', none) →
        ∀ g, (dlookup g self'.features).isSome →
          (dlookup g self.features).isSome ∨ ∃ d ∈ deps, Reaches reg d g) := by
    intro fuel HF deps
    induction deps with
    | nil =>
      intro self st self' st' h g hs
      unfold init_deps at h
      injection h with h1 h
      injection h with h2 h3
      subst h1
      exact Or.inl hs
    | cons d0 rest ih =>
      intro self st self' st' h g hs
      rw [init_deps_cons] at h
      rcases hx : init_feature reg fuel d0 model self st with ⟨self1, st1, e1⟩
      rw [hx] at h
      cases e1 with
      | some err =>
        dsimp only at h
        injection h with h1 h
        injection h with h2 h3
        exact Option.noConfusion h3
      | none =>
        dsimp only at h
        rcases ih self1 st1 self' st' h g hs with hs1 | ⟨d, hd, hr⟩
        · rcases HF d0 self st self1 st1 hx g hs1 with hs0 | hr
          · exact Or.inl hs0
          · exact Or.inr ⟨d0, List.mem_cons_self _ _, hr⟩
        · exact Or.inr ⟨d, List.mem_cons_of_mem _ hd, hr⟩
  have HF0 : ∀ f self st self' st',
      init_feature reg 0 f model self st = (self', st', none) →
      ∀ g, (dlookup g self'.features).isSome →
        (dlookup g self.features).isSome ∨ Reaches reg f g := by
    intro f self st self' st' h
    unfold init_feature at h
    injection h with h1 h
    injection h with h2 h3
    exact Option.noConfusion h3
  intro fuel
  induction fuel with
  | zero => exact ⟨HF0, DEPS 0 HF0⟩
  | succ fuel ih =>
    have HF : ∀ f self st self' st',
        init_feature reg (fuel + 1) f model self st = (self', st', none) →
        ∀ g, (dlookup g self'.features).isSome →
          (dlookup g self.features).isSome ∨ Reaches reg f g := by
      intro f self st self' st' h g hs
      unfold init_feature at h
      cases hreg : dlookup f reg with
      | none =>
        simp only [hreg] at h
        injection h with h1 h
        injection h with h2 h3
        exact Option.noConfusion h3
      | some fc =>
        simp only [hreg] at h
        rcases hdec : decorateMethods fc model fc.decorate st with ⟨st1, e1⟩
        rw [hdec] at h
        cases e1 with
        | some err =>
          dsimp only at h
          injection h with h1 h
          injection h with h2 h3
          exact Option.noConfusion h3
        | none =>
          dsimp only at h
          rcases DEPS fuel ih.1 _ _ _ _ _ h g hs with hs1 | ⟨d, hd, hr⟩
          · by_cases hg : g = f
            · subst hg
              exact Or.inr (Reaches.refl g)
            · rw [dlookup_dinsert_ne (fun hh => hg hh.symm)] at hs1
              exact Or.inl hs1
          · exact Or.inr (Reaches.head hreg hd hr)
    exact ⟨HF, DEPS (fuel + 1) HF⟩

/-- The features dict a successful run produces is exactly the one the
spec-side depth-first recorder produces: the feature first, then its declared
dependencies in order. -/
theorem init_record_order (reg : Registry) (model : ClassId) :
    ∀ fuel : Nat,
    (∀ f self st self' st', init_feature reg fuel f model self st = (self', st', none) →
      record_order reg self.feature self.optFeature self.optGlobal fuel f self.features =
        some self'.features) ∧
    (∀ deps self st self' st', init_deps reg fuel deps model self st = (self', st', none) →
      record_deps reg self.feature self.optFeature self.optGlobal fuel deps self.features =
        some self'.features) := by
  have DEPS : ∀ fuel : Nat,
      (∀ f self st self' st', init_feature reg fuel f model self st = (self', st', none) →
        record_order reg self.feature self.optFeature self.optGlobal fuel f self.features =
          some self'.features) →
      (∀ deps self st self' st', init_deps reg fuel deps model self st = (self', st', none) →
        record_deps reg self.feature self.optFeature self.optGlobal fuel deps self.features =
          some self'.features) := by
    intro fuel HF deps
    induction deps with
    | nil =>
      intro self st self' st' h
      unfold init_deps at h
      injection h with h1 h
      injection h with h2 h3
      subst h1
      rfl
    | cons d0 rest ih =>
      intro self st self' st' h
      rw [init_deps_cons] at h
      rcases hx : init_feature reg fuel d0 model self st with ⟨self1, st1, e1⟩
      rw [hx] at h
      cases e1 with
      | some err =>
        dsimp only at h
        injection h with h1 h
        injection h with h2 h3
        exact Option.noConfusion h3
      | none =>
        dsimp only at h
        obtain ⟨_, _, _, ha, hb, hc, _⟩ := init_feature_ok_frame hx
        have h0 := HF d0 self st self1 st1 hx
        have h1 := ih self1 st1 self' st' h
        rw [ha, hb, hc] at h1
        rw [record_deps_cons]
        rw [h0]
        exact h1
  have HF0 : ∀ f self st self' st',
      init_feature reg 0 f model self st = (self', st', none) →
      record_order reg self.feature self.optFeature self.optGlobal 0 f self.features =
        some self'.features := by
    intro f self st self' st' h
    unfold init_feature at h
    injection h with h1 h
    injection h with h2 h3
    exact Option.noConfusion h3
  intro fuel
  induction fuel with
  | zero => exact ⟨HF0, DEPS 0 HF0⟩
  | succ fuel ih =>
    have HF : ∀ f self st self' st',
        init_feature reg (fuel + 1) f model self st = (self', st', none) →
        record_order reg self.feature self.optFeature self.optGlobal (fuel + 1) f
          self.features = some self'.features := by
      intro f self st self' st' h
      unfold init_feature at h
      cases hreg : dlookup f reg with
      | none =>
        simp only [hreg] at h
        injection h with h1 h
        injection h with h2 h3
        exact Option.noConfusion h3
      | some fc =>
        simp only [hreg] at h
        rcases hdec : decorateMethods fc model fc.decorate st with ⟨st1, e1⟩
        rw [hdec] at h
        cases e1 with
        | some err =>
          dsimp only at h
          injection h with h1 h
          injection h with h2 h3
          exact Option.noConfusion h3
        | none =>
          dsimp only at h
          unfold record_order
          rw [hreg]
          exact DEPS fuel ih.1 _ _ _ _ _ h
    exact ⟨HF, DEPS (fuel + 1) HF⟩

/-- Installing into an empty features dict records the requested feature
first: it stays at the head through the dependency recursion. -/
theorem init_feature_ok_head {reg : Registry} {model : ClassId} {fuel : Nat}
    {f : FeatureName} {self self' : InstallSelf} {st st' : State}
    (h : init_feature reg fuel f model self st = (self', st', none))
    (hempty : self.features = []) :
    ∃ fc, dlookup f reg = some fc ∧
      self'.features.head? =
        some (f, canonRec self.feature self.optFeature self.optGlobal f fc) := by
  cases fuel with
  | zero =>
    unfold init_feature at h
    injection h with h1 h
    injection h with h2 h3
    exact Option.noConfusion h3
  | succ fuel =>
    unfold init_feature at h
    cases hreg : dlookup f reg with
    | none =>
      simp only [hreg] at h
      injection h with h1 h
      injection h with h2 h3
      exact Option.noConfusion h3
    | some fc =>
      simp only [hreg] at h
      rcases hdec : decorateMethods fc model fc.decorate st with ⟨st1, e1⟩
      rw [hdec] at h
      cases e1 with
      | some err =>
        dsimp only at h
        injection h with h1 h
        injection h with h2 h3
        exact Option.noConfusion h3
      | none =>
        dsimp only at h
        have ev := ((init_features_evolution reg model fuel).2) _ _ _ _ _ h
        refine ⟨fc, rfl, ?_⟩
        refine ev.2.1 f (canonRec self.feature self.optFeature self.optGlobal f fc) ?_
          ⟨fc, hreg, rfl⟩
        simp [hempty, dinsert, canonRec]

/-! ## Merge-loop lemmas -/

theorem mergeOld_step (self : InstallSelf) (p : FeatureName × FeatureInstance)
    (t : List (FeatureName × FeatureInstance)) :
    mergeOld self (p :: t) =
      mergeOld (match dlookup p.1 self.features with
        | some _ => self
        | none => { self with features := self.features ++ [(p.1, ⟨p.2.cls, p.2.options⟩)] }) t :=
  rfl

theorem mergeOld_fields (old : List (FeatureName × FeatureInstance)) :
    ∀ self : InstallSelf, (mergeOld self old).feature = self.feature ∧
      (mergeOld self old).optFeature = self.optFeature ∧
      (mergeOld self old).optGlobal = self.optGlobal := by
  induction old with
  | nil => intro self; exact ⟨rfl, rfl, rfl⟩
  | cons p t ih =>
    intro self
    rw [mergeOld_step]
    cases dlookup p.1 self.features with
    | some v => exact ih self
    | none => exact ih _

theorem mergeOld_lookup_isSome (old : List (FeatureName × FeatureInstance)) :
    ∀ (self : InstallSelf) (g : FeatureName), (dlookup g self.features).isSome →
      dlookup g (mergeOld self old).features = dlookup g self.features := by
  induction old with
  | nil => intro self g _; rfl
  | cons p t ih =>
    intro self g hs
    rw [mergeOld_step]
    cases hp : dlookup p.1 self.features with
    | some v => exact ih self g hs
    | none =>
      have happ : dlookup g (self.features ++ [(p.1, ⟨p.2.cls, p.2.options⟩)]) =
          dlookup g self.features := by
        rw [dlookup_append]
        cases hg : dlookup g self.features with
        | some v => rfl
        | none => rw [hg] at hs; simp at hs
      rw [ih _ g (by simp only [happ]; exact hs)]
      exact happ

theorem mergeOld_lookup_new (old : List (FeatureName × FeatureInstance)) :
    ∀ (self : InstallSelf) (g : FeatureName) (inst : FeatureInstance), (g, inst) ∈ old →
      (old.map Prod.fst).Nodup → dlookup g self.features = none →
      dlookup g (mergeOld self old).features = some ⟨inst.cls, inst.options⟩ := by
  induction old with
  | nil => intro self g inst hmem; simp at hmem
  | cons p t ih =>
    intro self g inst hmem hnd hnone
    have hnd' : (t.map Prod.fst).Nodup := (List.nodup_cons.mp hnd).2
    rcases List.mem_cons.mp hmem with hp | ht
    · subst hp
      rw [mergeOld_step]
      simp only [hnone]
      have hself' : dlookup g ({ self with
          features := self.features ++ [(g, ⟨inst.cls, inst.options⟩)] } : InstallSelf).features =
          some ⟨inst.cls, inst.options⟩ := by
        simp only
        rw [dlookup_append, hnone]
        simp
      rw [mergeOld_lookup_isSome t _ g (by rw [hself']; rfl)]
      exact hself'
    · have hpg : p.1 ≠ g := by
        intro hh
        have : p.1 ∈ t.map Prod.fst := List.mem_map.mpr ⟨(g, inst), ht, by rw [hh]⟩
        exact (List.nodup_cons.mp hnd).1 this
      rw [mergeOld_step]
      cases hp : dlookup p.1 self.features with
      | some v => exact ih self g inst ht hnd' hnone
      | none =>
        refine ih _ g inst ht hnd' ?_
        simp only
        rw [dlookup_append, hnone]
        simp [hpg]

theorem mergeOld_append (old : List (FeatureName × FeatureInstance)) :
    ∀ self : InstallSelf, ∃ extra, (mergeOld self old).features = self.features ++ extra := by
  induction old with
  | nil => intro self; exact ⟨[], by simp [mergeOld]⟩
  | cons p t ih =>
    intro self
    rw [mergeOld_step]
    cases dlookup p.1 self.features with
    | some v => exact ih self
    | none =>
      obtain ⟨extra, hx⟩ := ih { self with
        features := self.features ++ [(p.1, ⟨p.2.cls, p.2.options⟩)] }
      exact ⟨[(p.1, ⟨p.2.cls, p.2.options⟩)] ++ extra, by rw [hx]; simp⟩

/-! ## Methods-only congruence -/

theorem getMethodAux_congr_methods {st st' : State}
    (h : ∀ cid, (st'.getClass cid).map ClassObj.methods = (st.getClass cid).map ClassObj.methods)
    (n : MethodName) (l : List ClassId) : getMethodAux st' n l = getMethodAux st n l := by
  induction l with
  | nil => rfl
  | cons x rest ih =>
    have hx := h x
    simp only [getMethodAux]
    cases h1 : st.getClass x with
    | none =>
      rw [h1] at hx
      cases h2 : st'.getClass x with
      | none => exact ih
      | some co' => rw [h2] at hx; simp at hx
    | some co =>
      rw [h1] at hx
      cases h2 : st'.getClass x with
      | none => rw [h2] at hx; simp at hx
      | some co' =>
        rw [h2] at hx
        simp only [Option.map_some', Option.some.injEq] at hx
        simp only [hx]
        cases dlookup n co.methods <;> simp [ih]

theorem getMethod_congr {st st' : State}
    (hm : ∀ cid, (st'.getClass cid).map ClassObj.methods = (st.getClass cid).map ClassObj.methods)
    (hmro : ∀ cid, (st'.getClass cid).map ClassObj.mro = (st.getClass cid).map ClassObj.mro)
    (c : ClassId) (n : MethodName) : getMethod st' c n = getMethod st c n := by
  unfold getMethod
  have hx := hmro c
  cases h1 : st.getClass c with
  | none =>
    rw [h1] at hx
    cases h2 : st'.getClass c with
    | none => rfl
    | some co' => rw [h2] at hx; simp at hx
  | some co =>
    rw [h1] at hx
    cases h2 : st'.getClass c with
    | none => rw [h2] at hx; simp at hx
    | some co' =>
      rw [h2] at hx
      simp only [Option.map_some', Option.some.injEq] at hx
      simp only [hx]
      exact getMethodAux_congr_methods hm n co.mro

theorem getMethod_setArchD (st : State) (c : ClassId) (d : Nat) (c' : ClassId) (n : MethodName) :
    getMethod (setArchD st c d) c' n = getMethod st c' n := by
  refine getMethod_congr (fun cid => ?_) (fun cid => ?_) c' n <;>
  · rw [getClass_setArchD]
    by_cases hc : cid = c
    · rw [if_pos hc]
      cases st.getClass cid <;> rfl
    · rw [if_neg hc]

/-! ## `install` decomposition -/

/-- A successful `install` run is: a successful `init_feature` from a fresh
decorator state, then the merge of the previously visible namespace, then a
brand-new descriptor over the merged dict bound as the model's own
`architect`. -/
theorem install_decomp {reg : Registry} {fuel : Nat} {feature : FeatureName}
    {options : Options} {model : ClassId} {st st' : State}
    (h : install_decorator reg fuel feature options model st = (st', none)) :
    ∃ self1 st1 self2 st2,
      init_feature reg fuel feature model
        ⟨[], feature, dremove "orm" options, options.filter fun kv => kv.1 = "db"⟩ st =
        (self1, st1, none) ∧
      ((getArchDid st1 model = none ∧ self2 = self1 ∧ st2 = st1) ∨
        ∃ did entry, getArchDid st1 model = some did ∧
          archGet st1 did model none = some (st2, entry) ∧
          self2 = mergeOld self1 (genDict entry)) ∧
      st' = setArchD
        { st2 with descriptors := dinsert st2.fresh ⟨self2.features, []⟩ st2.descriptors,
                   fresh := st2.fresh + 1 } model st2.fresh := by
  unfold install_decorator at h
  dsimp only at h
  rcases hx : init_feature reg fuel feature model
      ⟨[], feature, dremove "orm" options, options.filter fun kv => kv.1 = "db"⟩ st
    with ⟨self1, st1, e1⟩
  rw [hx] at h
  cases e1 with
  | some err =>
    dsimp only at h
    injection h with h1 h2
    exact Option.noConfusion h2
  | none =>
    dsimp only at h
    cases hga : getArchDid st1 model with
    | none =>
      simp only [hga] at h
      injection h with h1 h2
      exact ⟨self1, st1, self1, st1, rfl, Or.inl ⟨hga, rfl, rfl⟩, h1.symm⟩
    | some did =>
      simp only [hga] at h
      rcases harch : archGet st1 did model none with _ | ⟨st2, entry⟩
      · rw [harch] at h
        dsimp only at h
        injection h with h1 h2
        exact Option.noConfusion h2
      · rw [harch] at h
        dsimp only at h
        injection h with h1 h2
        exact ⟨self1, st1, mergeOld self1 (genDict entry), st2, rfl,
          Or.inr ⟨did, entry, hga, harch, rfl⟩, h1.symm⟩

/-! ## Restore lemmas -/

theorem restoredM_self {m : Method} (h : m.is_decorated = false) :
    restoredM (some m) = some m := by
  cases m with
  | pristine i => rfl
  | decorated fc n o => simp [Method.is_decorated] at h

theorem restoredM_undecorated {m m' : Method} (h : slotOK m = true)
    (h2 : restoredM (some m) = some m') : m'.is_decorated = false := by
  cases m with
  | pristine i =>
    injection h2 with h2
    subst h2
    rfl
  | decorated fc n o =>
    unfold slotOK at h
    simp only [Bool.not_eq_true'] at h
    injection h2 with h2
    subst h2
    exact h

theorem classesMeta_of_classes_eq {st st' : State} (h : st'.classes = st.classes)
    (model : ClassId) : ClassesMeta st st' model := by
  refine ⟨fun c' _ => getClass_eq_of_classes h c', ?_, ?_, ?_⟩ <;>
    rw [getClass_eq_of_classes h]

theorem entryRel_refl (st : State) : EntryRel st st :=
  fun _ _ e he => ⟨e, he, rfl, rfl, fun _ hk => hk⟩

theorem entryRel_trans {st1 st2 st3 : State} (h12 : EntryRel st1 st2) (h23 : EntryRel st2 st3) :
    EntryRel st1 st3 := by
  intro did c e he
  obtain ⟨e2, he2, hg2, hf2, hk2⟩ := h12 did c e he
  obtain ⟨e3, he3, hg3, hf3, hk3⟩ := h23 did c e2 he2
  exact ⟨e3, he3, hg3.trans hg2, hf3.trans hf2, fun k hk => hk2 k (hk3 k hk)⟩

theorem entryRel_of_descriptors_eq {st st' : State} (h : st'.descriptors = st.descriptors) :
    EntryRel st st' := by
  intro did c e he
  refine ⟨e, ?_, rfl, rfl, fun _ hk => hk⟩
  unfold lookupEntry at he ⊢
  rw [h]
  exact he

theorem archGet_entryRel {st st' : State} {did : Nat} {c : ClassId} {e : MapEntry}
    (h : archGet st did c none = some (st', e)) : EntryRel st st' := by
  intro did' c' e' he'
  exact ⟨e', archGet_pres h did' c' e' he', rfl, rfl, fun _ hk => hk⟩

theorem restore_fold (c : ClassId) :
    ∀ (L : List (MethodName × Method)) (st : State), headSelf st c = true →
      (L.map Prod.fst).Nodup → (∀ p ∈ L, getMethod st c p.1 = some p.2) →
      (∀ n, n ∉ L.map Prod.fst →
        getMethod (L.foldl (restoreStep c) st) c n = getMethod st c n) ∧
      (∀ p ∈ L, getMethod (L.foldl (restoreStep c) st) c p.1 = restoredM (some p.2)) ∧
      ClassesMeta st (L.foldl (restoreStep c) st) c ∧
      (L.foldl (restoreStep c) st).descriptors = st.descriptors ∧
      (L.foldl (restoreStep c) st).fresh = st.fresh := by
  intro L
  induction L with
  | nil =>
    intro st hh hnd hsound
    exact ⟨fun n _ => rfl, fun p hp => absurd hp (List.not_mem_nil p),
      classesMeta_refl _ _, rfl, rfl⟩
  | cons q t ih =>
    intro st hh hnd hsound
    obtain ⟨x, m⟩ := q
    have hstep_meta : ClassesMeta st (restoreStep c st (x, m)) c := by
      cases m with
      | pristine i => exact classesMeta_refl _ _
      | decorated fc mn o => exact ClassesMeta.setMethod st c x o
    have hstep_desc : (restoreStep c st (x, m)).descriptors = st.descriptors := by
      cases m <;> rfl
    have hstep_fresh : (restoreStep c st (x, m)).fresh = st.fresh := by
      cases m <;> rfl
    have hh1 : headSelf (restoreStep c st (x, m)) c = true := by
      rw [headSelf_of_meta hstep_meta]
      exact hh
    have hstep_x : getMethod (restoreStep c st (x, m)) c x = restoredM (some m) := by
      cases m with
      | pristine i => exact hsound (x, .pristine i) (List.mem_cons_self _ _)
      | decorated fc mn o => exact getMethod_setMethod_self st hh x o
    have hstep_ne : ∀ n, n ≠ x → getMethod (restoreStep c st (x, m)) c n = getMethod st c n := by
      intro n hn
      cases m with
      | pristine i => rfl
      | decorated fc mn o => exact getMethod_setMethod_ne st hn c c o
    have hnd0 : (x :: t.map Prod.fst).Nodup := by simpa using hnd
    have hxnot : x ∉ t.map Prod.fst := (List.nodup_cons.mp hnd0).1
    have hnd' : (t.map Prod.fst).Nodup := (List.nodup_cons.mp hnd0).2
    have hsound' : ∀ p ∈ t, getMethod (restoreStep c st (x, m)) c p.1 = some p.2 := by
      intro p hp
      have hpx : p.1 ≠ x := by
        intro hh'
        exact hxnot (hh' ▸ List.mem_map.mpr ⟨p, hp, rfl⟩)
      rw [hstep_ne p.1 hpx]
      exact hsound p (List.mem_cons_of_mem _ hp)
    obtain ⟨ihn, ihmem, ihmeta, ihdesc, ihfresh⟩ := ih (restoreStep c st (x, m)) hh1 hnd' hsound'
    rw [List.foldl_cons]
    refine ⟨?_, ?_, hstep_meta.trans ihmeta, by rw [ihdesc, hstep_desc],
      by rw [ihfresh, hstep_fresh]⟩
    · intro n hn
      have hnx : n ≠ x := by
        intro hh'
        exact hn (by rw [hh']; simp)
      have hnt : n ∉ t.map Prod.fst := by
        intro hh'
        exact hn (by simp [hh'])
      rw [ihn n hnt, hstep_ne n hnx]
    · intro p hp
      rcases List.mem_cons.mp hp with hpq | hpt
      · subst hpq
        rw [ihn x hxnot]
        exact hstep_x
      · exact ihmem p hpt

/-- The restore loop sets every visible slot to its restored value and
touches nothing else. -/
theorem restoreAll_spec {st : State} {c : ClassId} (hh : headSelf st c = true) :
    (∀ n, getMethod (restoreAll st c) c n = restoredM (getMethod st c n)) ∧
    ClassesMeta st (restoreAll st c) c ∧
    (restoreAll st c).descriptors = st.descriptors ∧
    (restoreAll st c).fresh = st.fresh := by
  obtain ⟨hn, hmem, hmeta, hdesc, hfresh⟩ :=
    restore_fold c (getMembers st c) st hh (getMembers_names_nodup st c)
      (fun p hp => getMembers_sound hp)
  refine ⟨?_, hmeta, hdesc, hfresh⟩
  intro n
  unfold restoreAll
  cases hm : getMethod st c n with
  | none =>
    have hnot : n ∉ (getMembers st c).map Prod.fst := by
      intro hmem'
      obtain ⟨p, hp, hpe⟩ := List.mem_map.mp hmem'
      have hs := getMembers_sound hp
      rw [hpe, hm] at hs
      exact Option.noConfusion hs
    rw [hn n hnot, hm]
    rfl
  | some m =>
    exact hmem (n, m) (getMembers_complete hm)

/-- A successful `delattr(model.architect, attr)` leaves classes untouched and
updates the live cache entry in place. -/
theorem delArch_ok {st st' : State} {model : ClassId} {attr : String}
    (h : delArch st model attr = (st', none)) :
    st'.classes = st.classes ∧ EntryRel st st' := by
  unfold delArch at h
  cases hga : getArchDid st model with
  | none =>
    simp only [hga] at h
    injection h with h1 h2
    exact Option.noConfusion h2
  | some did =>
    simp only [hga] at h
    rcases harch : archGet st did model none with _ | ⟨st1, e⟩
    · rw [harch] at h
      dsimp only at h
      injection h with h1 h2
      exact Option.noConfusion h2
    · rw [harch] at h
      dsimp only at h
      have hle : lookupEntry st1 did model = some e := archGet_lookupEntry harch
      have hdesc : (dlookup did st1.descriptors).isSome := by
        unfold lookupEntry at hle
        cases hd : dlookup did st1.descriptors with
        | none => rw [hd] at hle; exact Option.noConfusion hle
        | some d => rfl
      obtain ⟨d, hd⟩ := Option.isSome_iff_exists.mp hdesc
      have hsetrel : ∀ e2 : MapEntry, e2.gid = e.gid → e2.features = e.features →
          (∀ k ∈ e2.archKeys, k ∈ e.archKeys) →
          EntryRel st1 (setEntry st1 did model e2) := by
        intro e2 hg hf hk did' c' e0 he0
        by_cases hdc : did' = did ∧ c' = model
        · obtain ⟨h1, h2⟩ := hdc
          rw [h1, h2] at he0 ⊢
          rw [hle] at he0
          injection he0 with he0
          subst he0
          exact ⟨e2, lookupEntry_setEntry_self hd model e2, hg, hf, hk⟩
        · have hor : did' ≠ did ∨ c' ≠ model := by
            by_cases hd1 : did' = did
            · exact Or.inr fun hc => hdc ⟨hd1, hc⟩
            · exact Or.inl hd1
          exact ⟨e0, by rw [lookupEntry_setEntry_ne hor]; exact he0, rfl, rfl, fun _ hk' => hk'⟩
      by_cases hin : attr ∈ e.archKeys
      · rw [if_pos hin] at h
        injection h with h1 h2
        subst h1
        refine ⟨by rw [setEntry_classes]; exact archGet_classes harch, ?_⟩
        refine entryRel_trans (archGet_entryRel harch) ?_
        exact hsetrel _ rfl rfl (fun k hk => List.mem_of_mem_erase hk)
      · rw [if_neg hin] at h
        by_cases hmod : attr = "__module__"
        · rw [if_pos hmod] at h
          cases hhm : e.hasModule with
          | true =>
            rw [hhm] at h
            simp only [if_pos rfl] at h
            injection h with h1 h2
            subst h1
            refine ⟨by rw [setEntry_classes]; exact archGet_classes harch, ?_⟩
            refine entryRel_trans (archGet_entryRel harch) ?_
            exact hsetrel _ rfl rfl (fun k hk => hk)
          | false =>
            rw [hhm] at h
            simp only [Bool.false_eq_true, if_neg] at h
            injection h with h1 h2
            exact Option.noConfusion h2
        · rw [if_neg hmod] at h
          injection h with h1 h2
          exact Option.noConfusion h2

theorem slotOK_of_undecorated {m : Method} (h : m.is_decorated = false) : slotOK m = true := by
  cases m with
  | pristine i => rfl
  | decorated fc n o => simp [Method.is_decorated] at h

/-- Across a successful `deinit_feature` run on a model whose visible wrappers
have pristine back-references: every other class and the model's metadata are
untouched, every visible method slot is restored to its recorded original, and
every namespace cache entry is updated in place (same generated class, same
feature instances, possibly fewer attributes). -/
theorem deinit_rec (model : ClassId) :
    ∀ fuel : Nat,
    (∀ f st st', deinit_feature fuel f model st = (st', none) →
      headSelf st model = true →
      (∀ n mm, getMethod st model n = some mm → slotOK mm = true) →
      ClassesMeta st st' model ∧
      (∀ n, getMethod st' model n = restoredM (getMethod st model n)) ∧
      EntryRel st st') ∧
    (∀ deps st st', deinit_deps fuel deps model st = (st', none) →
      headSelf st model = true →
      (∀ n mm, getMethod st model n = some mm → mm.is_decorated = false) →
      ClassesMeta st st' model ∧
      (∀ n, getMethod st' model n = getMethod st model n) ∧
      EntryRel st st') := by
  have DEPS : ∀ fuel : Nat,
      (∀ f st st', deinit_feature fuel f model st = (st', none) →
        headSelf st model = true →
        (∀ n mm, getMethod st model n = some mm → slotOK mm = true) →
        ClassesMeta st st' model ∧
        (∀ n, getMethod st' model n = restoredM (getMethod st model n)) ∧
        EntryRel st st') →
      (∀ deps st st', deinit_deps fuel deps model st = (st', none) →
        headSelf st model = true →
        (∀ n mm, getMethod st model n = some mm → mm.is_decorated = false) →
        ClassesMeta st st' model ∧
        (∀ n, getMethod st' model n = getMethod st model n) ∧
        EntryRel st st') := by
    intro fuel HF deps
    induction deps with
    | nil =>
      intro st st' h hh hund
      unfold deinit_deps at h
      injection h with h1 h2
      subst h1
      exact ⟨classesMeta_refl _ _, fun n => rfl, entryRel_refl _⟩
    | cons d rest ih =>
      intro st st' h hh hund
      rw [deinit_deps_cons] at h
      rcases hx : deinit_feature fuel d model st with ⟨st1, e1⟩
      rw [hx] at h
      cases e1 with
      | some err =>
        dsimp only at h
        injection h with h1 h2
        exact Option.noConfusion h2
      | none =>
        dsimp only at h
        obtain ⟨hmeta1, hview1, hrel1⟩ :=
          HF d st st1 hx hh (fun n mm hm => slotOK_of_undecorated (hund n mm hm))
        have hview1' : ∀ n, getMethod st1 model n = getMethod st model n := by
          intro n
          rw [hview1 n]
          cases hm : getMethod st model n with
          | none => rfl
          | some mm => exact restoredM_self (hund n mm hm)
        have hh1 : headSelf st1 model = true := by
          rw [headSelf_of_meta hmeta1]
          exact hh
        have hund1 : ∀ n mm, getMethod st1 model n = some mm → mm.is_decorated = false := by
          intro n mm hm
          rw [hview1' n] at hm
          exact hund n mm hm
        obtain ⟨hmeta2, hview2, hrel2⟩ := ih st1 st' h hh1 hund1
        refine ⟨hmeta1.trans hmeta2, ?_, entryRel_trans hrel1 hrel2⟩
        intro n
        rw [hview2 n, hview1' n]
  have HF0 : ∀ f st st', deinit_feature 0 f model st = (st', none) →
      headSelf st model = true →
      (∀ n mm, getMethod st model n = some mm → slotOK mm = true) →
      ClassesMeta st st' model ∧
      (∀ n, getMethod st' model n = restoredM (getMethod st model n)) ∧
      EntryRel st st' := by
    intro f st st' h
    unfold deinit_feature at h
    injection h with h1 h2
    exact Option.noConfusion h2
  intro fuel
  induction fuel with
  | zero => exact ⟨HF0, DEPS 0 HF0⟩
  | succ fuel ih =>
    have HF : ∀ f st st', deinit_feature (fuel + 1) f model st = (st', none) →
        headSelf st model = true →
        (∀ n mm, getMethod st model n = some mm → slotOK mm = true) →
        ClassesMeta st st' model ∧
        (∀ n, getMethod st' model n = restoredM (getMethod st model n)) ∧
        EntryRel st st' := by
      intro f st st' h hh hok
      unfold deinit_feature at h
      cases hga : getArchDid st model with
      | none =>
        simp only [hga] at h
        injection h with h1 h2
        exact Option.noConfusion h2
      | some did =>
        simp only [hga] at h
        rcases harch : archGet st did model none with _ | ⟨st1, entry⟩
        · rw [harch] at h
          dsimp only at h
          injection h with h1 h2
          exact Option.noConfusion h2
        · rw [harch] at h
          dsimp only at h
          cases hattr : getattrArch entry f with
          | none =>
            simp only [hattr] at h
            injection h with h1 h2
            exact Option.noConfusion h2
          | some feature_obj =>
            simp only [hattr] at h
            rcases hdel : delArch (restoreAll st1 model) model f with ⟨st3, e3⟩
            rw [hdel] at h
            cases e3 with
            | some err =>
              dsimp only at h
              injection h with h1 h2
              exact Option.noConfusion h2
            | none =>
              dsimp only at h
              have hcls1 : st1.classes = st.classes := archGet_classes harch
              have hmeta1 : ClassesMeta st st1 model := classesMeta_of_classes_eq hcls1 model
              have hrel1 : EntryRel st st1 := archGet_entryRel harch
              have hh1 : headSelf st1 model = true := by
                rw [headSelf_eq_of_classes hcls1]
                exact hh
              obtain ⟨hv2, hmeta2, hdesc2, hfresh2⟩ := restoreAll_spec hh1
              have hrel2 : EntryRel st1 (restoreAll st1 model) :=
                entryRel_of_descriptors_eq hdesc2
              have hh2 : headSelf (restoreAll st1 model) model = true := by
                rw [headSelf_of_meta hmeta2]
                exact hh1
              obtain ⟨hcls3, hrel3⟩ := delArch_ok hdel
              have hmeta3 : ClassesMeta (restoreAll st1 model) st3 model :=
                classesMeta_of_classes_eq hcls3 model
              have hh3 : headSelf st3 model = true := by
                rw [headSelf_eq_of_classes hcls3]
                exact hh2
              have hv3' : ∀ n, getMethod st3 model n = restoredM (getMethod st model n) := by
                intro n
                rw [getMethod_eq_of_classes hcls3 model n, hv2 n,
                  getMethod_eq_of_classes hcls1 model n]
              have hund3 : ∀ n mm, getMethod st3 model n = some mm →
                  mm.is_decorated = false := by
                intro n mm hm
                rw [hv3' n] at hm
                cases hm0 : getMethod st model n with
                | none =>
                  rw [hm0] at hm
                  exact Option.noConfusion hm
                | some m0 =>
                  rw [hm0] at hm
                  exact restoredM_undecorated (hok n m0 hm0) hm
              cases feature_obj with
              | moduleStr s =>
                dsimp only at h
                injection h with h1 h2
                exact Option.noConfusion h2
              | featureInst inst =>
                dsimp only at h
                obtain ⟨hmeta4, hview4, hrel4⟩ :=
                  DEPS fuel ih.1 inst.cls.dependencies st3 st' h hh3 hund3
                refine ⟨((hmeta1.trans hmeta2).trans hmeta3).trans hmeta4, ?_,
                  entryRel_trans (entryRel_trans (entryRel_trans hrel1 hrel2) hrel3) hrel4⟩
                intro n
                rw [hview4 n, hv3' n]
    exact ⟨HF, DEPS (fuel + 1) HF⟩

/-! ## Install summary lemmas -/

theorem interceptOriginal_of_undecorated {m : Method} (h : m.is_decorated = false) :
    interceptOriginal m = m := by
  cases m with
  | pristine i => rfl
  | decorated fc n o => simp [Method.is_decorated] at h

theorem headSelf_of_mro_eq {st st' : State} {c : ClassId}
    (h : (st'.getClass c).map ClassObj.mro = (st.getClass c).map ClassObj.mro) :
    headSelf st' c = headSelf st c := by
  unfold headSelf
  cases h1 : st.getClass c with
  | none =>
    rw [h1] at h
    cases h2 : st'.getClass c with
    | none => rfl
    | some co' => rw [h2] at h; simp at h
  | some co =>
    rw [h1] at h
    cases h2 : st'.getClass c with
    | none => rw [h2] at h; simp at h
    | some co' =>
      rw [h2] at h
      simp only [Option.map_some', Option.some.injEq] at h
      simp only [h]

theorem getArchDid_setArchD_head {st : State} {c : ClassId} (hh : headSelf st c = true)
    (d : Nat) : getArchDid (setArchD st c d) c = some d := by
  obtain ⟨co, rest, hcl, hmro⟩ := headSelf_elim hh
  unfold getArchDid
  rw [getClass_setArchD, if_pos rfl, hcl]
  simp [getArchAux, getClass_setArchD, hcl, hmro]

theorem getArchAux_congr_outside {st st' : State} :
    ∀ {l : List ClassId}, (∀ x ∈ l, st'.getClass x = st.getClass x) →
      getArchAux st' l = getArchAux st l := by
  intro l
  induction l with
  | nil => intro _; rfl
  | cons x rest ih =>
    intro h
    simp only [getArchAux, h x (List.mem_cons_self _ _)]
    cases st.getClass x with
    | none => exact ih fun y hy => h y (List.mem_cons_of_mem _ hy)
    | some co =>
      dsimp only
      cases co.architectD with
      | some d => rfl
      | none => exact ih fun y hy => h y (List.mem_cons_of_mem _ hy)

/-- After a successful install, methods everywhere read exactly as they did
right after the `init_feature` phase, head-of-MRO status is unchanged, and
classes other than the model are untouched except for nothing at all. -/
theorem install_ok_methods {reg : Registry} {fuel : Nat} {F : FeatureName} {options : Options}
    {c : ClassId} {st st' : State}
    (h : install_decorator reg fuel F options c st = (st', none)) :
    ∃ self1 stI,
      init_feature reg fuel F c
        ⟨[], F, dremove "orm" options, options.filter fun kv => kv.1 = "db"⟩ st =
        (self1, stI, none) ∧
      (∀ c' n, getMethod st' c' n = getMethod stI c' n) ∧
      (∀ c', headSelf st' c' = headSelf stI c') ∧
      (∀ c', c' ≠ c → st'.getClass c' = stI.getClass c') ∧
      (st'.getClass c).map ClassObj.mro = (stI.getClass c).map ClassObj.mro ∧
      (st'.getClass c).map ClassObj.name = (stI.getClass c).map ClassObj.name := by
  obtain ⟨self1, stI, self2, stM, hx, hmerge, hst'⟩ := install_decomp h
  have hclsM : stM.classes = stI.classes := by
    rcases hmerge with ⟨_, _, heq⟩ | ⟨did, entry, _, harch, _⟩
    · rw [heq]
    · exact archGet_classes harch
  set st3 : State :=
    { stM with descriptors := dinsert stM.fresh ⟨self2.features, []⟩ stM.descriptors,
               fresh := stM.fresh + 1 } with hst3
  have hcls3 : st3.classes = stI.classes := hclsM
  refine ⟨self1, stI, hx, ?_, ?_, ?_, ?_, ?_⟩
  · intro c' n
    rw [hst', getMethod_setArchD, getMethod_eq_of_classes hcls3]
  · intro c'
    rw [hst']
    have h1 : headSelf (setArchD st3 c stM.fresh) c' = headSelf st3 c' := by
      refine headSelf_of_mro_eq ?_
      rw [getClass_setArchD]
      by_cases hc : c' = c
      · rw [if_pos hc]
        cases st3.getClass c' <;> rfl
      · rw [if_neg hc]
    rw [h1, headSelf_eq_of_classes hcls3]
  · intro c' hc
    rw [hst', getClass_setArchD, if_neg hc, getClass_eq_of_classes hcls3]
  · rw [hst', getClass_setArchD, if_pos rfl, getClass_eq_of_classes hcls3]
    cases stI.getClass c <;> rfl
  · rw [hst', getClass_setArchD, if_pos rfl, getClass_eq_of_classes hcls3]
    cases stI.getClass c <;> rfl

/-- After a successful install on a class that heads its own MRO, accessing
the capability namespace builds it from the merged features dict: the exposed
names are its keys in order, and each exposed instance carries the recorded
class and options. -/
theorem install_access {reg : Registry} {fuel : Nat} {F : FeatureName} {options : Options}
    {c : ClassId} {st st' : State}
    (h : install_decorator reg fuel F options c st = (st', none))
    (hh : headSelf st c = true) :
    ∃ self1 stI self2 stM,
      init_feature reg fuel F c
        ⟨[], F, dremove "orm" options, options.filter fun kv => kv.1 = "db"⟩ st =
        (self1, stI, none) ∧
      ((getArchDid stI c = none ∧ self2 = self1 ∧ stM = stI) ∨
        ∃ did entry, getArchDid stI c = some did ∧
          archGet stI did c none = some (stM, entry) ∧
          self2 = mergeOld self1 (genDict entry)) ∧
      ∃ st'' gid ns,
        accessNamespace st' c = some (st'', gid, ns) ∧
        ns.map Prod.fst = self2.features.map Prod.fst ∧
        (∀ g r, dlookup g self2.features = some r →
          ∃ k, dlookup g ns = some ⟨k, r.cls, none, c, r.options⟩) ∧
        (∀ p ∈ ns, ∃ r, (p.1, r) ∈ self2.features ∧ p.2.cls = r.cls ∧
          p.2.options = r.options) := by
  obtain ⟨self1, stI, self2, stM, hx, hmerge, hst'⟩ := install_decomp h
  obtain ⟨_, _, hmetaI, _, _, _, _⟩ := init_feature_ok_frame hx
  have hhI : headSelf stI c = true := by
    rw [headSelf_of_meta hmetaI]
    exact hh
  have hclsM : stM.classes = stI.classes := by
    rcases hmerge with ⟨_, _, heq⟩ | ⟨did, entry, _, harch, _⟩
    · rw [heq]
    · exact archGet_classes harch
  set st3 : State :=
    { stM with descriptors := dinsert stM.fresh ⟨self2.features, []⟩ stM.descriptors,
               fresh := stM.fresh + 1 } with hst3
  have hh3 : headSelf st3 c = true := by
    have : headSelf st3 c = headSelf stM c := headSelf_eq_of_classes rfl c
    rw [this, headSelf_eq_of_classes hclsM]
    exact hhI
  have hdid : getArchDid st' c = some stM.fresh := by
    rw [hst']
    exact getArchDid_setArchD_head hh3 stM.fresh
  have hdescr : dlookup stM.fresh st'.descriptors = some ⟨self2.features, []⟩ := by
    rw [hst']
    show dlookup stM.fresh st3.descriptors = _
    exact dlookup_dinsert_self _ _ _
  have hmapnone : dlookup c (ArchDescr.mk self2.features []).map = none := rfl
  refine ⟨self1, stI, self2, stM, hx, hmerge, ?_⟩
  rcases harchres : archGet st' stM.fresh c none with _ | ⟨st'', e⟩
  · exfalso
    unfold archGet at harchres
    rw [hdescr] at harchres
    simp at harchres
  · obtain ⟨hef, hek, hst''⟩ := archGet_build_entry hdescr hmapnone harchres
    have hgd : genDict e = e.features := by
      refine genDict_of_all ?_
      intro p hp
      rw [hek]
      exact List.mem_map.mpr ⟨p, hp, rfl⟩
    refine ⟨st'', e.gid, genDict e, ?_, ?_, ?_, ?_⟩
    · unfold accessNamespace
      simp only [hdid, harchres]
    · rw [hgd, hef]
      exact buildInstances_map_fst none c self2.features st'.fresh
    · intro g r hr
      rw [hgd, hef]
      exact buildInstances_dlookup st'.fresh hr
    · intro p hp
      rw [hgd, hef] at hp
      obtain ⟨r, hr, h1, h2, _, _⟩ := buildInstances_mem hp
      exact ⟨r, hr, h1, h2⟩

theorem StateOK_setArchD {st : State} {c : ClassId} {d : Nat} (h : StateOK st) :
    StateOK (setArchD st c d) := by
  intro p hp q hq
  unfold setArchD at hp
  simp only [List.mem_map] at hp
  obtain ⟨p0, hp0, hpe⟩ := hp
  by_cases hc : p0.1 = c
  · rw [if_pos hc] at hpe
    subst hpe
    exact h p0 hp0 q hq
  · rw [if_neg hc] at hpe
    subst hpe
    exact h p0 hp0 q hq

theorem StateOK_of_classes_eq {st st' : State} (hc : st'.classes = st.classes)
    (h : StateOK st) : StateOK st' := by
  intro p hp
  rw [hc] at hp
  exact h p hp

theorem root_of_undecorated {m : Method} (h : m.is_decorated = false) : m.root = m := by
  cases m with
  | pristine i => rfl
  | decorated fc n o => simp [Method.is_decorated] at h

theorem root_interceptOriginal (m : Method) : (interceptOriginal m).root = m.root := by
  cases m <;> rfl

theorem interceptOriginal_eq_root {m : Method} (h : slotOK m = true) :
    interceptOriginal m = m.root := by
  cases m with
  | pristine i => rfl
  | decorated fc n o =>
    unfold slotOK at h
    simp only [Bool.not_eq_true'] at h
    show o = o.root
    rw [root_of_undecorated h]

theorem accessNamespace_elim {st st0 : State} {c : ClassId} {gid : Nat}
    {ns : List (FeatureName × FeatureInstance)}
    (h : accessNamespace st c = some (st0, gid, ns)) :
    ∃ did e, getArchDid st c = some did ∧ archGet st did c none = some (st0, e) ∧
      gid = e.gid ∧ ns = genDict e := by
  unfold accessNamespace at h
  cases hga : getArchDid st c with
  | none =>
    simp only [hga] at h
    exact Option.noConfusion h
  | some did =>
    simp only [hga] at h
    rcases harch : archGet st did c none with _ | ⟨st1, e⟩
    · simp only [harch] at h
      exact Option.noConfusion h
    · simp only [harch] at h
      injection h with h
      injection h with h1 h
      injection h with h2 h3
      exact ⟨did, e, rfl, by rw [harch, h1], h2.symm, h3.symm⟩

theorem accessNamespace_classes {st st0 : State} {c : ClassId} {gid : Nat}
    {ns : List (FeatureName × FeatureInstance)}
    (h : accessNamespace st c = some (st0, gid, ns)) : st0.classes = st.classes := by
  obtain ⟨did, e, _, harch, _, _⟩ := accessNamespace_elim h
  exact archGet_classes harch

theorem dlookup_isSome_mem_keys [DecidableEq α] {g : α} {l : List (α × β)}
    (h : (dlookup g l).isSome) : g ∈ l.map Prod.fst := by
  cases hv : dlookup g l with
  | none => rw [hv] at h; simp at h
  | some v => exact List.mem_map.mpr ⟨(g, v), dlookup_mem hv, rfl⟩

theorem lookupEntry_dinsert_descr_ne {st : State} {k did : Nat} (h : did ≠ k)
    (D : ArchDescr) (fr : Nat) (c : ClassId) :
    lookupEntry { st with descriptors := dinsert k D st.descriptors, fresh := fr } did c =
      lookupEntry st did c := by
  unfold lookupEntry
  simp only
  rw [dlookup_dinsert_ne (fun hh => h hh.symm)]

/-! ## Claim C1 -/

/-- C1: for a target class with no features installed (its visible methods all
undecorated), installing any available feature and then immediately
uninstalling it restores every method slot — in particular every slot the
feature intercepted — to an implementation equal to the one bound before the
installation. -/
theorem c1_install_uninstall_restores {reg : Registry} {fuel fuel2 : Nat}
    {F : FeatureName} {options : Options} {c : ClassId} {st st1 st2 : State}
    (hhead : headSelf st c = true)
    (hclean : viewUndecorated st c = true)
    (hinstall : install_decorator reg fuel F options c st = (st1, none))
    (huninstall : uninstall_decorator fuel2 F c st1 = (st2, none)) :
    ∀ n, getMethod st2 c n = getMethod st c n := by
  obtain ⟨self1, stI, hx, hmeth, hheads, _, _, _⟩ := install_ok_methods hinstall
  have hVR : ViewRel (getMethod st c) (getMethod stI c) := init_feature_ok_view hx hhead
  obtain ⟨_, _, hmetaI, _, _, _, _⟩ := init_feature_ok_frame hx
  have hheadI : headSelf stI c = true := by
    rw [headSelf_of_meta hmetaI]
    exact hhead
  have hhead1 : headSelf st1 c = true := by
    rw [hheads c]
    exact hheadI
  have hchar : ∀ n, getMethod st1 c n = getMethod st c n ∨
      ∃ fc m, getMethod st c n = some m ∧ m.is_decorated = false ∧
        getMethod st1 c n = some (.decorated fc n m) := by
    intro n
    rcases hVR n with h' | ⟨fc, m, hm, h'⟩
    · exact Or.inl (by rw [hmeth c n, h'])
    · have hund := viewUndecorated_spec hclean hm
      refine Or.inr ⟨fc, m, hm, hund, ?_⟩
      rw [hmeth c n, h', interceptOriginal_of_undecorated hund]
  have hok1 : ∀ n mm, getMethod st1 c n = some mm → slotOK mm = true := by
    intro n mm hm
    rcases hchar n with h' | ⟨fc, m, hm0, hund, h'⟩
    · rw [h'] at hm
      exact slotOK_of_undecorated (viewUndecorated_spec hclean hm)
    · rw [h'] at hm
      injection hm with hm
      subst hm
      unfold slotOK
      simp [hund]
  obtain ⟨_, hrestore, _⟩ := (deinit_rec c fuel2).1 F st1 st2 huninstall hhead1 hok1
  intro n
  rw [hrestore n]
  rcases hchar n with h' | ⟨fc, m, hm0, hund, h'⟩
  · rw [h']
    cases hm : getMethod st c n with
    | none => rfl
    | some mm => exact restoredM_self (viewUndecorated_spec hclean hm)
  · rw [h', hm0]
    rfl

/-- C1 witness: the round trip on the demo model and feature. -/
theorem c1_witness :
    headSelf stDemo 0 = true ∧ viewUndecorated stDemo 0 = true ∧
    install_decorator regDemo 9 "partition" [] 0 stDemo = (stDemo1, none) ∧
    uninstall_decorator 9 "partition" 0 stDemo1 =
      ((uninstall_decorator 9 "partition" 0 stDemo1).1, none) ∧
    ∀ n, getMethod (uninstall_decorator 9 "partition" 0 stDemo1).1 0 n =
      getMethod stDemo 0 n :=
  ⟨by decide, by decide, by decide, by decide,
    @c1_install_uninstall_restores regDemo 9 9 "partition" [] 0 stDemo stDemo1
      (uninstall_decorator 9 "partition" 0 stDemo1).1 (by decide) (by decide)
      (by decide) (by decide)⟩

/-! ## Claim C2 -/

/-- C2: interception records the pristine implementation exactly once per
slot: across an install, every stored wrapper's back-reference is pristine
(never itself a wrapper), a slot's underlying pristine implementation never
changes, and any wrapper left on a slot points back exactly at the slot's
pristine implementation. -/
theorem c2_pristine_invariant {reg : Registry} {fuel : Nat} {F : FeatureName}
    {options : Options} {c : ClassId} {st st' : State}
    (hhead : headSelf st c = true)
    (hok : StateOK st)
    (hinstall : install_decorator reg fuel F options c st = (st', none)) :
    StateOK st' ∧
    ∀ n m m', getMethod st c n = some m → getMethod st' c n = some m' →
      m'.root = m.root ∧ ∀ fc mn o, m' = .decorated fc mn o → o = m.root := by
  obtain ⟨self1, stI, self2, stM, hx, hmerge, hst'⟩ := install_decomp hinstall
  obtain ⟨_, _, hmetaI, _, _, _, hokI⟩ := init_feature_ok_frame hx
  have hclsM : stM.classes = stI.classes := by
    rcases hmerge with ⟨_, _, heq⟩ | ⟨did, entry, _, harch, _⟩
    · rw [heq]
    · exact archGet_classes harch
  constructor
  · rw [hst']
    refine StateOK_setArchD (StateOK_of_classes_eq ?_ (StateOK_of_classes_eq hclsM (hokI hok)))
    rfl
  · obtain ⟨self1', stI', hx', hmeth, _⟩ := install_ok_methods hinstall
    rw [hx] at hx'
    injection hx' with h1 hx'
    injection hx' with h2 h3
    subst h1
    subst h2
    have hVR : ViewRel (getMethod st c) (getMethod stI c) := init_feature_ok_view hx hhead
    intro n m m' hm hm'
    rw [hmeth c n] at hm'
    rcases hVR n with h' | ⟨fc, m0, hm0, h'⟩
    · rw [h', hm] at hm'
      injection hm' with hm'
      subst hm'
      refine ⟨rfl, ?_⟩
      intro fc mn o hdec
      subst hdec
      have hs := StateOK_view hok hm
      unfold slotOK at hs
      simp only [Bool.not_eq_true'] at hs
      show o = Method.root (.decorated fc mn o)
      show o = o.root
      rw [root_of_undecorated hs]
    · rw [hm0] at hm
      injection hm with hm
      subst hm
      rw [h'] at hm'
      injection hm' with hm'
      subst hm'
      have hs := StateOK_view hok hm0
      refine ⟨?_, ?_⟩
      · show (Method.decorated fc n (interceptOriginal m0)).root = m0.root
        show (interceptOriginal m0).root = m0.root
        exact root_interceptOriginal m0
      · intro fc' mn o hdec
        injection hdec with hfc hmn ho
        subst ho
        exact interceptOriginal_eq_root hs


/-- C2 witness: the invariant on the demo install. -/
theorem c2_witness :
    headSelf stDemo 0 = true ∧ StateOK stDemo ∧
    install_decorator regDemo 9 "partition" [] 0 stDemo = (stDemo1, none) ∧
    (StateOK stDemo1 ∧
      ∀ n m m', getMethod stDemo 0 n = some m → getMethod stDemo1 0 n = some m' →
        m'.root = m.root ∧ ∀ fc mn o, m' = .decorated fc mn o → o = m.root) :=
  ⟨by decide, by decide, by decide,
    @c2_pristine_invariant regDemo 9 "partition" [] 0 stDemo stDemo1
      (by decide) (by decide) (by decide)⟩

/-- A feature with no declared dependencies reaches only itself. -/
theorem reaches_no_deps {reg : Registry} {f g : FeatureName} {fc : FeatureClass}
    (hf : dlookup f reg = some fc) (hdeps : fc.dependencies = [])
    (h : Reaches reg f g) : g = f := by
  cases h with
  | refl => rfl
  | head hfc hd hr =>
    rw [hf] at hfc
    injection hfc with hfc
    subst hfc
    rw [hdeps] at hd
    exact absurd hd (List.not_mem_nil _)

/-! ## Claim C6 -/

/-- C6: when feature `B` intercepts a method slot currently holding feature
`A`'s wrapper over an undecorated original, the slot after installing `B`
holds `B`'s wrapper applied directly to that pristine original — `A`'s
wrapper is no longer in the call chain. -/
theorem c6_last_interception_wins {reg : Registry} {fuel : Nat} {B : FeatureName}
    {options : Options} {c : ClassId} {st st' : State} {n : MethodName}
    {fcA fcB : FeatureClass} {m0 : Method}
    (hhead : headSelf st c = true)
    (hslot : getMethod st c n = some (.decorated fcA n m0))
    (hB : dlookup B reg = some fcB)
    (hdec : n ∈ fcB.decorate)
    (hnodeps : fcB.dependencies = [])
    (hinstall : install_decorator reg (fuel + 1) B options c st = (st', none)) :
    getMethod st' c n = some (.decorated fcB n m0) := by
  obtain ⟨self1, stI, hx, hmeth, _, _, _, _⟩ := install_ok_methods hinstall
  unfold init_feature at hx
  simp only [hB] at hx
  rcases hdecr : decorateMethods fcB c fcB.decorate st with ⟨st1, e1⟩
  rw [hdecr] at hx
  cases e1 with
  | some err =>
    dsimp only at hx
    injection hx with h1 hx
    injection hx with h2 h3
    exact Option.noConfusion h3
  | none =>
    dsimp only at hx
    rw [hnodeps] at hx
    injection hx with h1 hx
    injection hx with h2 h3
    obtain ⟨m, hm, hfin⟩ := (decorateMethods_view hdecr hhead n).2 hdec
    rw [hslot] at hm
    injection hm with hm
    subst hm
    rw [hmeth c n, ← h2, hfin]
    rfl

/-- C6 witness: installing `shadow` over `partition`'s wrapper on `save`
leaves `shadow`'s wrapper over the pristine implementation. -/
theorem c6_witness :
    headSelf stDemo1 0 = true ∧
    getMethod stDemo1 0 "save" = some (.decorated fcPartition "save" (.pristine 0)) ∧
    dlookup "shadow" regDemo = some fcShadow ∧
    "save" ∈ fcShadow.decorate ∧
    fcShadow.dependencies = [] ∧
    install_decorator regDemo 9 "shadow" [] 0 stDemo1 =
      ((install_decorator regDemo 9 "shadow" [] 0 stDemo1).1, none) ∧
    getMethod (install_decorator regDemo 9 "shadow" [] 0 stDemo1).1 0 "save" =
      some (.decorated fcShadow "save" (.pristine 0)) :=
  ⟨by decide, by decide, by decide, by decide, by decide, by decide,
    @c6_last_interception_wins regDemo 8 "shadow" [] 0 stDemo1
      (install_decorator regDemo 9 "shadow" [] 0 stDemo1).1 "save" fcPartition fcShadow
      (.pristine 0) (by decide) (by decide) (by decide) (by decide) (by decide) (by decide)⟩

/-! ## Claim C7 -/

/-- C7: a successful uninstall restores every currently wrapped method slot of
the model to its recorded pristine implementation, whichever feature installed
the wrapper. -/
theorem c7_uninstall_restores_every_slot {fuel : Nat} {F : FeatureName} {c : ClassId}
    {st st' : State}
    (hhead : headSelf st c = true)
    (hok : viewOK st c = true)
    (huninstall : uninstall_decorator fuel F c st = (st', none)) :
    ∀ n fc mn o, getMethod st c n = some (.decorated fc mn o) →
      getMethod st' c n = some o := by
  obtain ⟨_, hrestore, _⟩ := (deinit_rec c fuel).1 F st st' huninstall hhead
    (fun n mm hm => viewOK_spec hok hm)
  intro n fc mn o hm
  rw [hrestore n, hm]
  rfl

/-- C7 witness: uninstalling `partition` also restores the `update` slot,
wrapped by the dependency feature `audit`. -/
theorem c7_witness :
    headSelf stDemo1 0 = true ∧ viewOK stDemo1 0 = true ∧
    uninstall_decorator 9 "partition" 0 stDemo1 =
      ((uninstall_decorator 9 "partition" 0 stDemo1).1, none) ∧
    getMethod stDemo1 0 "update" = some (.decorated fcAudit "update" (.pristine 1)) ∧
    getMethod (uninstall_decorator 9 "partition" 0 stDemo1).1 0 "update" =
      some (.pristine 1) :=
  ⟨by decide, by decide, by decide, by decide,
    @c7_uninstall_restores_every_slot 9 "partition" 0 stDemo1
      (uninstall_decorator 9 "partition" 0 stDemo1).1 (by decide) (by decide) (by decide)
      "update" fcAudit "update" (.pristine 1) (by decide)⟩

/-! ## Claim C10 -/

/-- C10: uninstalling any feature from a class with no `architect` attribute
anywhere in its MRO escapes with the plain attribute error raised while the
error-reporting path re-reads `model.architect`, not with a
`FeatureUninstallError`, and leaves the state unchanged. -/
theorem c10_missing_namespace_error {fuel : Nat} {F : FeatureName} {c : ClassId} {st : State}
    (h : getArchDid st c = none) :
    uninstall_decorator (fuel + 1) F c st = (st, some (.attributeError "architect")) := by
  show deinit_feature (fuel + 1) F c st = _
  unfold deinit_feature
  simp only [h]

/-- C10 witness: the pristine demo model has no namespace, and uninstall
fails with the plain attribute error. -/
theorem c10_witness :
    getArchDid stDemo 0 = none ∧
    uninstall_decorator 1 "partition" 0 stDemo = (stDemo, some (.attributeError "architect")) :=
  ⟨by decide, @c10_missing_namespace_error 0 "partition" 0 stDemo (by decide)⟩

/-! ## Claim C4 -/

/-- C4: installing a feature whose name and transitive dependency names avoid
the features already installed on the class keeps every previously installed
feature present in the capability namespace afterwards, with its class and
its options. -/
theorem c4_disjoint_install_keeps_old {reg : Registry} {fuel : Nat} {G : FeatureName}
    {options : Options} {c : ClassId} {st st' : State} {did : Nat} {e : MapEntry}
    (hhead : headSelf st c = true)
    (hdid : getArchDid st c = some did)
    (hent : lookupEntry st did c = some e)
    (hnodup : ((genDict e).map Prod.fst).Nodup)
    (hdisj : ∀ p ∈ genDict e, ¬ Reaches reg G p.1)
    (hinstall : install_decorator reg fuel G options c st = (st', none)) :
    ∃ st'' gid ns, accessNamespace st' c = some (st'', gid, ns) ∧
      ∀ g inst, (g, inst) ∈ genDict e →
        ∃ k, dlookup g ns = some (⟨k, inst.cls, none, c, inst.options⟩ : FeatureInstance) := by
  obtain ⟨self1, stI, self2, stM, hx, hmerge, hacc⟩ := install_access hinstall hhead
  obtain ⟨hdescI, _, hmetaI, _, _, _, _⟩ := init_feature_ok_frame hx
  have hdidI : getArchDid stI c = some did := by
    rw [getArchDid_of_meta hmetaI c]
    exact hdid
  have hentI : lookupEntry stI did c = some e := by
    unfold lookupEntry at hent ⊢
    rw [hdescI]
    exact hent
  rcases hmerge with ⟨hnone, _, _⟩ | ⟨did2, entry, hdid2, harch, hself2⟩
  · rw [hdidI] at hnone
    exact Option.noConfusion hnone
  · rw [hdidI] at hdid2
    injection hdid2 with hdid2
    subst hdid2
    rw [archGet_cached hentI] at harch
    injection harch with harch
    injection harch with hM hE
    subst hM
    subst hE
    obtain ⟨st'', gid, ns, hans, hkeys, hforward, hback⟩ := hacc
    refine ⟨st'', gid, ns, hans, ?_⟩
    intro g inst hmem
    have hnone1 : dlookup g self1.features = none := by
      cases hl : dlookup g self1.features with
      | none => rfl
      | some r =>
        exfalso
        have hsome : (dlookup g self1.features).isSome := by rw [hl]; rfl
        rcases (init_keys_reach reg c fuel).1 G _ st _ stI hx g hsome with h0 | hr
        · simp at h0
        · exact hdisj (g, inst) hmem hr
    have hlook2 : dlookup g self2.features = some ⟨inst.cls, inst.options⟩ := by
      rw [hself2]
      exact mergeOld_lookup_new (genDict e) self1 g inst hmem hnodup hnone1
    exact hforward g ⟨inst.cls, inst.options⟩ hlook2

/-- C4 witness: installing the unrelated `plain` on the demo model keeps
`partition` and `audit` in the namespace with their classes and options. -/
theorem c4_witness :
    headSelf stDemo2 0 = true ∧ getArchDid stDemo2 0 = some 1 ∧
    lookupEntry stDemo2 1 0 = some eDemo ∧
    ((genDict eDemo).map Prod.fst).Nodup ∧
    install_decorator regDemo 9 "plain" [] 0 stDemo2 =
      ((install_decorator regDemo 9 "plain" [] 0 stDemo2).1, none) ∧
    ∃ st'' gid ns,
      accessNamespace (install_decorator regDemo 9 "plain" [] 0 stDemo2).1 0 =
        some (st'', gid, ns) ∧
      ∀ g inst, (g, inst) ∈ genDict eDemo →
        ∃ k, dlookup g ns = some (⟨k, inst.cls, none, 0, inst.options⟩ : FeatureInstance) :=
  ⟨by decide, by decide, by decide, by decide, by decide,
    @c4_disjoint_install_keeps_old regDemo 9 "plain" [] 0 stDemo2
      (install_decorator regDemo 9 "plain" [] 0 stDemo2).1 1 eDemo
      (by decide) (by decide) (by decide) (by decide)
      (by
        intro p hp h
        have hpe := @reaches_no_deps regDemo "plain" p.1 fcPlain (by decide) (by decide) h
        have hmm : p.1 ∈ (genDict eDemo).map Prod.fst := List.mem_map_of_mem Prod.fst hp
        rw [hpe] at hmm
        exact absurd hmm (by decide))
      (by decide)⟩

/-! ## Claim C5 -/

/-- C5: a successful install records the requested feature first and then its
declared dependencies depth-first in declared order — the features dict is
exactly the spec-side recorder's output, with the requested feature at its
head — and the capability namespace afterwards contains the requested feature
and every transitive dependency: the requested feature carrying the
per-feature options and every dependency the shared (db-filtered) options. -/
theorem c5_feature_then_dependencies {reg : Registry} {fuel : Nat} {F : FeatureName}
    {options : Options} {c : ClassId} {st st' : State}
    (hhead : headSelf st c = true)
    (hinstall : install_decorator reg fuel F options c st = (st', none)) :
    ∃ feats, record_order reg F (dremove "orm" options)
        (options.filter fun kv => kv.1 = "db") fuel F [] = some feats ∧
      (∃ fcF, dlookup F reg = some fcF ∧
        feats.head? = some (F, ⟨fcF, dremove "orm" options⟩)) ∧
      ∃ st'' gid ns, accessNamespace st' c = some (st'', gid, ns) ∧
        (∃ extra, ns.map Prod.fst = feats.map Prod.fst ++ extra) ∧
        ∀ g, Reaches reg F g → ∃ fc, dlookup g reg = some fc ∧
          ∃ k, dlookup g ns = some (⟨k, fc, none, c,
            if g = F then dremove "orm" options
            else options.filter fun kv => kv.1 = "db"⟩ : FeatureInstance) := by
  obtain ⟨self1, stI, self2, stM, hx, hmerge, hacc⟩ := install_access hinstall hhead
  obtain ⟨st'', gid, ns, hans, hkeys, hforward, _⟩ := hacc
  have hrec := (init_record_order reg c fuel).1 F _ st self1 stI hx
  refine ⟨self1.features, hrec, ?_, st'', gid, ns, hans, ?_, ?_⟩
  · obtain ⟨fcF, hfcF, hhd⟩ := init_feature_ok_head hx rfl
    refine ⟨fcF, hfcF, ?_⟩
    rw [hhd]
    simp [canonRec]
  · rcases hmerge with ⟨_, hself2, _⟩ | ⟨did, entry, _, _, hself2⟩
    · exact ⟨[], by rw [hkeys, hself2]; simp⟩
    · obtain ⟨extra, hex⟩ := mergeOld_append (genDict entry) self1
      exact ⟨extra.map Prod.fst, by rw [hkeys, hself2, hex]; simp⟩
  · intro g hreach
    obtain ⟨fc, hfc, hlook⟩ := (init_reach_canon reg c fuel).1 F _ st self1 stI hx g hreach
    have hlook2 : dlookup g self2.features = some (canonRec F (dremove "orm" options)
        (options.filter fun kv => kv.1 = "db") g fc) := by
      rcases hmerge with ⟨_, hself2, _⟩ | ⟨did, entry, _, _, hself2⟩
      · rw [hself2]
        exact hlook
      · rw [hself2]
        rw [mergeOld_lookup_isSome (genDict entry) self1 g (by rw [hlook]; rfl)]
        exact hlook
    obtain ⟨k, hk⟩ := hforward g _ hlook2
    exact ⟨fc, hfc, k, hk⟩

/-- C5 witness: installing `partition` with the demo options records
`partition` (with the orm-stripped options) before its dependency `audit`
(with the db-only options), and both reach the namespace. -/
theorem c5_witness :
    headSelf stDemo 0 = true ∧
    install_decorator regDemo 9 "partition" oDemo 0 stDemo =
      ((install_decorator regDemo 9 "partition" oDemo 0 stDemo).1, none) ∧
    (∃ feats, record_order regDemo "partition" (dremove "orm" oDemo)
        (oDemo.filter fun kv => kv.1 = "db") 9 "partition" [] = some feats ∧
      (∃ fcF, dlookup "partition" regDemo = some fcF ∧
        feats.head? = some ("partition", ⟨fcF, dremove "orm" oDemo⟩)) ∧
      ∃ st'' gid ns,
        accessNamespace (install_decorator regDemo 9 "partition" oDemo 0 stDemo).1 0 =
          some (st'', gid, ns) ∧
        (∃ extra, ns.map Prod.fst = feats.map Prod.fst ++ extra) ∧
        ∀ g, Reaches regDemo "partition" g → ∃ fc, dlookup g regDemo = some fc ∧
          ∃ k, dlookup g ns = some (⟨k, fc, none, 0,
            if g = "partition" then dremove "orm" oDemo
            else oDemo.filter fun kv => kv.1 = "db"⟩ : FeatureInstance)) :=
  ⟨by decide, by decide,
    @c5_feature_then_dependencies regDemo 9 "partition" oDemo 0 stDemo
      (install_decorator regDemo 9 "partition" oDemo 0 stDemo).1 (by decide) (by decide)⟩

/-! ## Claim C8 -/

/-- C8: installing on a subclass leaves the base class's built namespace cache
entry untouched under its own descriptor and key, while the subclass ends up
with its own namespace containing the installed feature — cache entries are
keyed by the concrete receiving class. -/
theorem c8_subclass_does_not_touch_base {reg : Registry} {fuel : Nat} {G : FeatureName}
    {options : Options} {base child : ClassId} {st st' : State} {did : Nat} {e : MapEntry}
    (hheadc : headSelf st child = true)
    (hdlt : did < st.fresh)
    (hentb : lookupEntry st did base = some e)
    (hinstall : install_decorator reg fuel G options child st = (st', none)) :
    lookupEntry st' did base = some e ∧
    ∃ st'' gid ns, accessNamespace st' child = some (st'', gid, ns) ∧
      ∃ inst, dlookup G ns = some inst := by
  constructor
  · obtain ⟨self1, stI, self2, stM, hx, hmerge, hst'⟩ := install_decomp hinstall
    obtain ⟨hdescI, hfreshI, _, _, _, _, _⟩ := init_feature_ok_frame hx
    have hentI : lookupEntry stI did base = some e := by
      unfold lookupEntry at hentb ⊢
      rw [hdescI]
      exact hentb
    have hfM : st.fresh ≤ stM.fresh := by
      rcases hmerge with ⟨_, _, heq⟩ | ⟨did2, entry, _, harch, _⟩
      · rw [heq, hfreshI]
      · rw [← hfreshI]
        exact archGet_fresh_le harch
    have hentM : lookupEntry stM did base = some e := by
      rcases hmerge with ⟨_, _, heq⟩ | ⟨did2, entry, _, harch, _⟩
      · rw [heq]
        exact hentI
      · exact archGet_pres harch did base e hentI
    have hneq : did ≠ stM.fresh := Nat.ne_of_lt (Nat.lt_of_lt_of_le hdlt hfM)
    rw [hst']
    have hset : lookupEntry (setArchD
        { stM with descriptors := dinsert stM.fresh ⟨self2.features, []⟩ stM.descriptors,
                   fresh := stM.fresh + 1 } child stM.fresh) did base =
        lookupEntry { stM with
          descriptors := dinsert stM.fresh ⟨self2.features, []⟩ stM.descriptors,
          fresh := stM.fresh + 1 } did base := rfl
    rw [hset, lookupEntry_dinsert_descr_ne hneq _ _ _]
    exact hentM
  · obtain ⟨self1, stI, self2, stM, hx, hmerge, hacc⟩ := install_access hinstall hheadc
    obtain ⟨st'', gid, ns, hans, _, hforward, _⟩ := hacc
    obtain ⟨fcG, hfcG, hlook⟩ :=
      (init_reach_canon reg child fuel).1 G _ st self1 stI hx G (Reaches.refl G)
    have hlook2 : (dlookup G self2.features).isSome := by
      rcases hmerge with ⟨_, hself2, _⟩ | ⟨did2, entry, _, _, hself2⟩
      · rw [hself2, hlook]
        rfl
      · rw [hself2, mergeOld_lookup_isSome (genDict entry) self1 G (by rw [hlook]; rfl), hlook]
        rfl
    cases hv : dlookup G self2.features with
    | none => rw [hv] at hlook2; exact absurd hlook2 (by simp)
    | some r =>
      obtain ⟨k, hk⟩ := hforward G r hv
      exact ⟨st'', gid, ns, hans, ⟨k, r.cls, none, child, r.options⟩, hk⟩

/-- C8 witness: installing `plain` on the child class leaves the base class's
entry (same instances, same generated class) in place and gives the child its
own namespace containing `plain`. -/
theorem c8_witness :
    headSelf stInherit 1 = true ∧ (0 : Nat) < stInherit.fresh ∧
    lookupEntry stInherit 0 0 = some eBase ∧
    install_decorator regDemo 9 "plain" [] 1 stInherit =
      ((install_decorator regDemo 9 "plain" [] 1 stInherit).1, none) ∧
    (lookupEntry (install_decorator regDemo 9 "plain" [] 1 stInherit).1 0 0 = some eBase ∧
      ∃ st'' gid ns,
        accessNamespace (install_decorator regDemo 9 "plain" [] 1 stInherit).1 1 =
          some (st'', gid, ns) ∧
        ∃ inst, dlookup "plain" ns = some inst) :=
  ⟨by decide, by decide, by decide, by decide,
    @c8_subclass_does_not_touch_base regDemo 9 "plain" [] 0 1 stInherit
      (install_decorator regDemo 9 "plain" [] 1 stInherit).1 0 eBase
      (by decide) (by decide) (by decide) (by decide)⟩

/-! ## Claim C3 -/

/-- C3 counterexample: once the demo model's namespace is built (generated
class identity 4, `partition` instance identity 2), a further successful
install run does not update that entry in place: the next access yields a
fresh generated class (identity 9) and a fresh `partition` instance
(identity 7), so a `FeatureInstance` reference obtained before the install is
stale. -/
theorem c3_counterexample :
    (install_decorator regDemo 9 "plain" [] 0 stDemo2).2 = none ∧
    (accessNamespace stDemo2 0).map
      (fun t => (t.2.1, (dlookup "partition" t.2.2).map FeatureInstance.iid)) =
      some (4, some 2) ∧
    (accessNamespace (install_decorator regDemo 9 "plain" [] 0 stDemo2).1 0).map
      (fun t => (t.2.1, (dlookup "partition" t.2.2).map FeatureInstance.iid)) =
      some (9, some 7) :=
  ⟨by decide, by decide, by decide⟩

/-- C3 (amended): a successful uninstall updates the concrete class's built
cache entry in place — the entry survives under the same descriptor and key
with the same generated-class identity and the same feature-instance objects,
only its attribute list shrinking — so references into it stay live.  (A
subsequent install instead replaces the descriptor and rebuilds the cache
entry with fresh objects on next access, as the counterexample shows.) -/
theorem c3_uninstall_updates_in_place {fuel : Nat} {F : FeatureName} {c : ClassId}
    {st st' : State} {did : Nat} {e : MapEntry}
    (hhead : headSelf st c = true)
    (hok : viewOK st c = true)
    (hent : lookupEntry st did c = some e)
    (huninstall : uninstall_decorator fuel F c st = (st', none)) :
    ∃ e', lookupEntry st' did c = some e' ∧ e'.gid = e.gid ∧
      e'.features = e.features ∧ ∀ k ∈ e'.archKeys, k ∈ e.archKeys := by
  obtain ⟨_, _, hrel⟩ := (deinit_rec c fuel).1 F st st' huninstall hhead
    (fun n mm hm => viewOK_spec hok hm)
  exact hrel did c e hent

/-- C3 witness: uninstalling `partition` from the demo model keeps the cache
entry in place with the same generated class and instances. -/
theorem c3_witness :
    headSelf stDemo2 0 = true ∧ viewOK stDemo2 0 = true ∧
    lookupEntry stDemo2 1 0 = some eDemo ∧
    uninstall_decorator 9 "partition" 0 stDemo2 =
      ((uninstall_decorator 9 "partition" 0 stDemo2).1, none) ∧
    ∃ e', lookupEntry (uninstall_decorator 9 "partition" 0 stDemo2).1 1 0 = some e' ∧
      e'.gid = eDemo.gid ∧ e'.features = eDemo.features ∧
      ∀ k ∈ e'.archKeys, k ∈ eDemo.archKeys :=
  ⟨by decide, by decide, by decide, by decide,
    @c3_uninstall_updates_in_place 9 "partition" 0 stDemo2
      (uninstall_decorator 9 "partition" 0 stDemo2).1 1 eDemo
      (by decide) (by decide) (by decide) (by decide)⟩

/-! ## Claim C9 -/

/-- C9: the program does not satisfy the claim — `deinit_feature`'s
`getattr(model.architect, feature)` guard (source line 166) lacks the
`isinstance(obj, BaseFeature)` check its own error handler applies when
listing the allowed names (line 171), so every attribute of the generated
namespace class that is not an installed feature slips past it:
`'__module__'` (set at lines 87-88, the case tracked by this model), and in
the real runtime also the attributes `type()` and `object` contribute
(`'__doc__'`, `'__dict__'`, `'__weakref__'`, `'__init__'`, `'mro'`, ...).
This run shows the divergence on `'__module__'`: it is not an installed
feature of the demo model, yet uninstalling it does not raise
`FeatureUninstallError` and does not leave the state unchanged — the
attribute is found on the generated class, every wrapped method is restored
(`save` loses its wrapper), the attribute is deleted, and the run then fails
with the plain attribute error on `dependencies`. -/
theorem c9_counterexample :
    dlookup "__module__" (genDict eDemo) = none ∧
    lookupEntry stDemo2 1 0 = some eDemo ∧
    (uninstall_decorator 9 "__module__" 0 stDemo2).2 =
      some (.attributeError "dependencies") ∧
    getMethod stDemo2 0 "save" = some (.decorated fcPartition "save" (.pristine 0)) ∧
    getMethod (uninstall_decorator 9 "__module__" 0 stDemo2).1 0 "save" =
      some (.pristine 0) :=
  ⟨by decide, by decide, by decide, by decide, by decide⟩

end Architect
